import Mathlib

/-!
Verification development for the Tree Signal service.

The definitions below are a shallow embedding of the Python sources under
`src/tree_signal`: `core/models.py`, `core/tree_service.py`,
`core/color_palette.py`, `layout/generator.py` and `api/main.py`.

Modelling conventions:
* timestamps and durations (`datetime` / `timedelta`) are rationals (seconds);
* float arithmetic is modelled exactly over `ℚ`;
* Python `dict` values are insertion-ordered association lists (`setdefault`
  appends at the end, assignment to an existing key keeps its position,
  `pop` removes the entry);
* in-place mutation becomes explicit state passing: each operation returns
  the updated tree / service / colour state;
* code that raises (`prune` of the empty path) returns `Option`.
-/

namespace TreeSignal

/-- Severity levels recognised by the message pipeline (`models.MessageSeverity`). -/
inductive MessageSeverity : Type where
  | debug
  | info
  | warn
  | error
deriving DecidableEq, Repr

/-- The string value of each severity member (`MessageSeverity(str, Enum)`). -/
def MessageSeverity.value : MessageSeverity → String
  | .debug => "debug"
  | .info => "info"
  | .warn => "warn"
  | .error => "error"

/-- Incoming payload published to a hierarchical channel (`models.Message`).
Timestamps are rational seconds; `lifespan_seconds` defaults to 30 in the source. -/
structure Message where
  id : String
  channel_path : List String
  payload : String
  received_at : ℚ
  severity : MessageSeverity
  metadata : Option (List (String × String))
  lifespan_seconds : ℚ
deriving DecidableEq, Repr

/-- Models `Message.expires_at` property: `received_at + timedelta(seconds=lifespan_seconds)`. -/
def Message.expires_at (m : Message) : ℚ :=
  m.received_at + m.lifespan_seconds

/-- Runtime representation of a node in the channel tree
(`models.ChannelNodeState`).  `children` is the insertion-ordered dict from
next segment to child node. -/
inductive ChannelNodeState : Type where
  | mk (path : List String) (weight : ℚ) (last_message_at : Option ℚ)
       (fade_deadline : Option ℚ) (locked : Bool) (created_at : Option ℚ)
       (children : List (String × ChannelNodeState))

namespace ChannelNodeState

def path : ChannelNodeState → List String
  | .mk p _ _ _ _ _ _ => p

def weight : ChannelNodeState → ℚ
  | .mk _ w _ _ _ _ _ => w

def last_message_at : ChannelNodeState → Option ℚ
  | .mk _ _ l _ _ _ _ => l

def fade_deadline : ChannelNodeState → Option ℚ
  | .mk _ _ _ f _ _ _ => f

def locked : ChannelNodeState → Bool
  | .mk _ _ _ _ lk _ _ => lk

def created_at : ChannelNodeState → Option ℚ
  | .mk _ _ _ _ _ c _ => c

def children : ChannelNodeState → List (String × ChannelNodeState)
  | .mk _ _ _ _ _ _ ch => ch

/-- Replace the weight field. -/
def withWeight (w : ℚ) : ChannelNodeState → ChannelNodeState
  | .mk p _ l f lk c ch => .mk p w l f lk c ch

/-- Replace the children field. -/
def withChildren (ch : List (String × ChannelNodeState)) : ChannelNodeState → ChannelNodeState
  | .mk p w l f lk c _ => .mk p w l f lk c ch

/-- Models `ChannelNodeState.touch`: set `last_message_at` to the timestamp and add
the delta to the weight, flooring the weight at 0. -/
def touch (timestamp weight_delta : ℚ) : ChannelNodeState → ChannelNodeState
  | .mk p w _ f lk c ch => .mk p (max (w + weight_delta) 0) (some timestamp) f lk c ch

/-- Models `ChannelNodeState.schedule_fade`: set the fade deadline to
`last_message_at + hold + decay` when `last_message_at` is not `None`. -/
def schedule_fade (hold decay : ℚ) (n : ChannelNodeState) : ChannelNodeState :=
  match n with
  | .mk p w l f lk c ch =>
    match l with
    | none => .mk p w l f lk c ch
    | some t => .mk p w l (some (t + hold + decay)) lk c ch

end ChannelNodeState

/-- Python `dict` lookup on an insertion-ordered association list. -/
def assocLookup {α : Type} : List (String × α) → String → Option α
  | [], _ => none
  | (k, v) :: rest, key => if k = key then some v else assocLookup rest key

/-- Python `dict` assignment: replace in place when the key exists,
append at the end otherwise. -/
def assocSet {α : Type} : List (String × α) → String → α → List (String × α)
  | [], key, v => [(key, v)]
  | (k, w) :: rest, key, v =>
    if k = key then (k, v) :: rest else (k, w) :: assocSet rest key v

/-- Python `dict.pop`: remove the entry for a key, keeping the rest in order. -/
def assocErase {α : Type} : List (String × α) → String → List (String × α)
  | [], _ => []
  | (k, w) :: rest, key =>
    if k = key then rest else (k, w) :: assocErase rest key

/-- History-map lookup (paths as keys). -/
def histLookup {α : Type} : List (List String × α) → List String → Option α
  | [], _ => none
  | (k, v) :: rest, key => if k = key then some v else histLookup rest key

/-- History-map assignment. -/
def histSet {α : Type} : List (List String × α) → List String → α → List (List String × α)
  | [], key, v => [(key, v)]
  | (k, w) :: rest, key, v =>
    if k = key then (k, v) :: rest else (k, w) :: histSet rest key v

/-- History-map `pop`. -/
def histErase {α : Type} : List (List String × α) → List String → List (List String × α)
  | [], _ => []
  | (k, w) :: rest, key =>
    if k = key then rest else (k, w) :: histErase rest key

/-- Models `tree_service.MAX_HISTORY`. -/
def MAX_HISTORY : Nat := 100

/-- In-memory channel tree service (`tree_service.ChannelTreeService`):
the synthetic root, the decay configuration and the bounded per-channel
history map. -/
structure ChannelTreeService where
  root : ChannelNodeState
  hold : ℚ
  decay : ℚ
  history : List (List String × List Message)

namespace ChannelTreeService

/-- Models `ChannelTreeService.__init__`: empty root with weight 0,
`hold = 10 s`, `decay = 5 s`, empty history. -/
def init : ChannelTreeService :=
  { root := .mk [] 0 none none false none []
    hold := 10
    decay := 5
    history := [] }

/-- Models `ChannelTreeService.get_node`: follow the children maps along the path. -/
def get_node_aux : ChannelNodeState → List String → Option ChannelNodeState
  | n, [] => some n
  | n, s :: rest =>
    match assocLookup n.children s with
    | none => none
    | some c => get_node_aux c rest

/-- Models `ChannelTreeService.get_node` from the root. -/
def get_node (svc : ChannelTreeService) (path : List String) : Option ChannelNodeState :=
  get_node_aux svc.root path

/-- Models `ChannelTreeService.get_history`: `list(self._history.get(path, ()))`. -/
def get_history (svc : ChannelTreeService) (path : List String) : List Message :=
  (histLookup svc.history path).getD []

/-- Models `ChannelTreeService._append_history`: `setdefault` a bounded deque
(`maxlen=MAX_HISTORY`, the oldest entry is dropped on overflow) and append. -/
def append_history (history : List (List String × List Message)) (m : Message) :
    List (List String × List Message) :=
  let old := (histLookup history m.channel_path).getD []
  let l := old ++ [m]
  histSet history m.channel_path (l.drop (l.length - MAX_HISTORY))

/-- Models `ChannelTreeService._ensure_child`: fetch the child for the segment, or
create it with weight 0 and `created_at = timestamp` (the write-back into
the parent's dict happens in `ingest_along`). -/
def ensure_child (n : ChannelNodeState) (seg : String) (timestamp : ℚ) :
    ChannelNodeState :=
  match assocLookup n.children seg with
  | some c => c
  | none => .mk (n.path ++ [seg]) 0 none none false (some timestamp) []

/-- The loop body of `ChannelTreeService.ingest`: walk the path from the
given node, fetching or creating each child (`_ensure_child`), touching it
and scheduling its fade, then continuing into it.  The updated child is
written back into the parent's children dict. -/
def ingest_along (hold decay timestamp weight_delta : ℚ) :
    List String → ChannelNodeState → ChannelNodeState
  | [], n => n
  | seg :: rest, n =>
    let c1 := ((ensure_child n seg timestamp).touch timestamp
      weight_delta).schedule_fade hold decay
    let c2 := ingest_along hold decay timestamp weight_delta rest c1
    n.withChildren (assocSet n.children seg c2)

/-- Models `ChannelTreeService.ingest`: touch the root, walk the path creating and
touching nodes, then append the message to the bounded history. -/
def ingest (svc : ChannelTreeService) (m : Message) (weight_delta : ℚ) :
    ChannelTreeService :=
  let r1 := svc.root.touch m.received_at weight_delta
  let r2 := ingest_along svc.hold svc.decay m.received_at weight_delta m.channel_path r1
  { svc with root := r2, history := append_history svc.history m }

end ChannelTreeService

mutual

/-- Models `ChannelTreeService.iter_nodes`: depth-first, node first, children in
insertion order (the stack-based loop in the source yields exactly this
preorder). -/
def iter_nodes_from : ChannelNodeState → List ChannelNodeState
  | .mk p w l f lk c ch => ChannelNodeState.mk p w l f lk c ch :: iter_nodes_children ch

/-- Preorder traversal of a children list, in insertion order. -/
def iter_nodes_children : List (String × ChannelNodeState) → List ChannelNodeState
  | [] => []
  | (_, n) :: rest => iter_nodes_from n ++ iter_nodes_children rest

end

/-- Models `ChannelTreeService.iter_nodes` from the root. -/
def iter_nodes (svc : ChannelTreeService) : List ChannelNodeState :=
  iter_nodes_from svc.root

/-- Remove the child for `seg` from the node found at `parentPath`
(the `parent.children.pop(segment)` step of `prune`); unchanged when some
step of the path is missing. -/
def remove_child_at : ChannelNodeState → List String → String → ChannelNodeState
  | n, [], seg => n.withChildren (assocErase n.children seg)
  | n, s :: rest, seg =>
    match assocLookup n.children s with
    | none => n
    | some c => n.withChildren (assocSet n.children s (remove_child_at c rest seg))

/-- Floor-at-zero weight subtraction on a single node
(`node.weight = max(node.weight - delta, 0.0)`). -/
def dec_weight (delta : ℚ) (n : ChannelNodeState) : ChannelNodeState :=
  n.withWeight (max (n.weight - delta) 0)

/-- The ancestor walk of `prune`: subtract the removed subtree's weight,
floored at 0, from the node at every prefix of `parentPath` (the source
walks from the parent up to the root via each node's stored path; on the
trees the service builds, where every stored path equals the node's
position, that walk visits exactly these prefixes). -/
def dec_along (delta : ℚ) : ChannelNodeState → List String → ChannelNodeState
  | n, [] => dec_weight delta n
  | n, s :: rest =>
    let n' := dec_weight delta n
    match assocLookup n'.children s with
    | none => n'
    | some c => n'.withChildren (assocSet n'.children s (dec_along delta c rest))

namespace ChannelTreeService

/-- Models `ChannelTreeService.prune`: `none` models the `ValueError` on the empty
path.  A missing parent or missing target segment is a silent no-op.
Otherwise the child is detached, the removed subtree's root weight is
subtracted (floored at 0) from the parent and every ancestor up to the
root, and the history entry for the pruned path is popped. -/
def prune (svc : ChannelTreeService) (path : List String) :
    Option ChannelTreeService :=
  match path.getLast? with
  | none => none
  | some seg =>
    let parentPath := path.dropLast
    match svc.get_node parentPath with
    | none => some svc
    | some parent =>
      match assocLookup parent.children seg with
      | none => some svc
      | some removed =>
        let delta := removed.weight
        let r1 := remove_child_at svc.root parentPath seg
        let r2 := dec_along delta r1 parentPath
        some { svc with root := r2, history := histErase svc.history path }

/-- First pass of `cleanup_expired`: for every history queue drop leading
messages whose `expires_at ≤ now`; the keys are retained. -/
def cleanup_phase1 (svc : ChannelTreeService) (now : ℚ) : ChannelTreeService :=
  { svc with
    history := svc.history.map fun pv =>
      (pv.1, pv.2.dropWhile fun m => decide (m.expires_at ≤ now)) }

/-- The candidate test of `cleanup_expired`: a non-root leaf with no
remaining history messages whose `created_at` is at least 10 s old. -/
def prune_candidate (svc : ChannelTreeService) (now : ℚ) (n : ChannelNodeState) : Bool :=
  match n.path, n.children, n.created_at with
  | [], _, _ => false
  | _ :: _, _ :: _, _ => false
  | _ :: _, [], none => false
  | _ :: _, [], some t => svc.get_history n.path = [] && decide (10 ≤ now - t)

/-- Stable insertion keeping longer paths first (Python's stable
`sorted(key=len, reverse=True)`). -/
def insert_longest : List String → List (List String) → List (List String)
  | p, [] => [p]
  | p, q :: rest =>
    if p.length ≤ q.length then q :: insert_longest p rest else p :: q :: rest

/-- Stable sort of the candidate paths, longest first. -/
def sort_longest_first (ps : List (List String)) : List (List String) :=
  ps.foldl (fun acc p => insert_longest p acc) []

/-- Models `ChannelTreeService.cleanup_expired`: expire history heads, then prune
the stale empty leaves bottom-up (longest path first), ignoring prune
errors. -/
def cleanup_expired (svc : ChannelTreeService) (now : ℚ) : ChannelTreeService :=
  let svc1 := svc.cleanup_phase1 now
  let candidates :=
    ((iter_nodes svc1).filter (prune_candidate svc1 now)).map ChannelNodeState.path
  (sort_longest_first candidates).foldl (fun s p => (s.prune p).getD s) svc1

end ChannelTreeService

mutual

/-- Number of nodes of a subtree (used to count layout frames). -/
def countNodes : ChannelNodeState → Nat
  | .mk _ _ _ _ _ _ ch => 1 + countNodesList ch

/-- Number of nodes across a children list. -/
def countNodesList : List (String × ChannelNodeState) → Nat
  | [] => 0
  | (_, n) :: rest => countNodes n + countNodesList rest

end

mutual

/-- Every node of the subtree has non-negative weight. -/
def nodesNonneg : ChannelNodeState → Bool
  | .mk _ w _ _ _ _ ch => decide (0 ≤ w) && nodesNonnegList ch

/-- Models `nodesNonneg` across a children list. -/
def nodesNonnegList : List (String × ChannelNodeState) → Bool
  | [] => true
  | (_, n) :: rest => nodesNonneg n && nodesNonnegList rest

end

mutual

/-- Every strict descendant of the node stores a non-empty path (true of
every tree the service builds; the layout generator renders exactly the
nodes whose stored path is non-empty). -/
def childPathsNonempty : ChannelNodeState → Bool
  | .mk _ _ _ _ _ _ ch => childPathsNonemptyList ch

/-- Models `childPathsNonempty` across a children list. -/
def childPathsNonemptyList : List (String × ChannelNodeState) → Bool
  | [] => true
  | (_, n) :: rest => (!n.path.isEmpty) && childPathsNonempty n && childPathsNonemptyList rest

end

/-! ## Colour palette (`core/color_palette.py`)

Python float arithmetic is modelled exactly over `ℚ`; the float constants
`ONE_THIRD`, `ONE_SIXTH`, `TWO_THIRD` of `colorsys` become the exact
rationals. -/

/-- A complete colour scheme for one channel (`ColorScheme`). -/
structure ColorScheme where
  hue : ℤ
  background : String
  border : String
  normal : String
  highlight : String
deriving DecidableEq, Repr

/-- Models `x % 1.0` on floats for the hue argument of `colorsys._v`:
the fractional part. -/
def fract (x : ℚ) : ℚ := x - (⌊x⌋ : ℚ)

/-- Models `colorsys._v(m1, m2, hue)`. -/
def colorsys_v (m1 m2 hue : ℚ) : ℚ :=
  let h := fract hue
  if h < 1/6 then m1 + (m2 - m1) * h * 6
  else if h < 1/2 then m2
  else if h < 2/3 then m1 + (m2 - m1) * (2/3 - h) * 6
  else m1

/-- Models `colorsys.hls_to_rgb(h, l, s)`. -/
def hls_to_rgb (h l s : ℚ) : ℚ × ℚ × ℚ :=
  if s = 0 then (l, l, l)
  else
    let m2 := if l ≤ 1/2 then l * (1 + s) else l + s - l * s
    let m1 := 2 * l - m2
    (colorsys_v m1 m2 (h + 1/3), colorsys_v m1 m2 h, colorsys_v m1 m2 (h - 1/3))

/-- One lowercase hex digit. -/
def hexDigit (n : Nat) : Char :=
  if n < 10 then Char.ofNat (48 + n) else Char.ofNat (87 + n % 16)

/-- Two lowercase hex digits (`f-string 02x`; every channel value produced by
the palette is in `0..255`, so two digits always suffice). -/
def hex2 (n : Nat) : String :=
  String.mk [hexDigit (n / 16 % 16), hexDigit (n % 16)]

/-- Models `int(x * 255)` for a non-negative colour channel: truncation is floor. -/
def channelByte (x : ℚ) : Nat := (⌊x * 255⌋).toNat

/-- Models `ColorPaletteGenerator._hsl_to_hex(h, s, l)`. -/
def hsl_to_hex (h s l : ℚ) : String :=
  let rgb := hls_to_rgb (h / 360) (l / 100) (s / 100)
  "#" ++ hex2 (channelByte rgb.1) ++ hex2 (channelByte rgb.2.1) ++ hex2 (channelByte rgb.2.2)

/-- Hue-rotation palette generator (`ColorPaletteGenerator`). -/
structure ColorPaletteGenerator where
  increment : ℤ
  start : ℤ
deriving DecidableEq, Repr

/-- Models `ColorPaletteGenerator.__init__`: the start hue is reduced mod 360. -/
def ColorPaletteGenerator.make (increment start : ℤ) : ColorPaletteGenerator :=
  ⟨increment, start % 360⟩

/-- Models `ColorPaletteGenerator._generate_scheme(hue)`. -/
def generate_scheme (hue : ℤ) : ColorScheme :=
  { hue := hue
    background := hsl_to_hex (hue : ℚ) 35 15
    border := hsl_to_hex (hue : ℚ) 40 30
    normal := hsl_to_hex (hue : ℚ) 50 65
    highlight := hsl_to_hex (hue : ℚ) 60 85 }

/-- Models `ColorPaletteGenerator.get_scheme_for_index(index)`:
`hue = (start + increment * index) % 360`. -/
def get_scheme_for_index (g : ColorPaletteGenerator) (index : ℤ) : ColorScheme :=
  generate_scheme ((g.start + g.increment * index) % 360)

/-- Mutable state of `ColorService` in its default configuration
(`mode="increment"`, `inheritance_mode="unique"`), as constructed by
`LinearLayoutGenerator()`: the key → index dict and the next index.
The `hash` assignment mode calls SHA-256 from the standard library and the
`root`/`family` inheritance modes use a separate root-index map; none of the
claims exercise them and they are not embedded. -/
structure ColorServiceState where
  channel_index_map : List (String × Nat)
  next_index : Nat
deriving DecidableEq, Repr

/-- Models `ColorService.__init__` state: empty map, counter 0, generator
`ColorPaletteGenerator(increment=101, start=0)`. -/
def ColorServiceState.init : ColorServiceState :=
  { channel_index_map := [], next_index := 0 }

/-- The generator owned by `ColorService`. -/
def colorServiceGenerator : ColorPaletteGenerator :=
  ColorPaletteGenerator.make 101 0

/-- Models `ColorService._get_incremental_scheme(channel)`: assign the next index
on first sight, then return the scheme for the key's index. -/
def get_incremental_scheme (cs : ColorServiceState) (channel : String) :
    ColorScheme × ColorServiceState :=
  let cs' :=
    if (assocLookup cs.channel_index_map channel).isSome then cs
    else
      { channel_index_map := cs.channel_index_map ++ [(channel, cs.next_index)]
        next_index := cs.next_index + 1 }
  let index := (assocLookup cs'.channel_index_map channel).getD 0
  (get_scheme_for_index colorServiceGenerator (index : ℤ), cs')

/-- Models `ColorService.get_scheme_for_channel(channel_path)` in the default
`unique` + `increment` configuration: the key is the path joined by `.`. -/
def get_scheme_for_channel (cs : ColorServiceState) (channel_path : List String) :
    ColorScheme × ColorServiceState :=
  get_incremental_scheme cs (String.intercalate "." channel_path)

/-! ## Layout generator (`layout/generator.py`) -/

/-- Normalised rectangle describing panel placement (`models.LayoutRect`). -/
structure LayoutRect where
  x : ℚ
  y : ℚ
  width : ℚ
  height : ℚ
deriving DecidableEq, Repr

/-- Lifecycle state for a panel (`models.PanelState`). -/
inductive PanelState : Type where
  | active
  | fading
  | removed
deriving DecidableEq, Repr

/-- Computed layout data for a channel node (`models.LayoutFrame`). -/
structure LayoutFrame where
  path : List String
  rect : LayoutRect
  state : PanelState
  weight : ℚ
  generated_at : ℚ
  colors : ColorScheme
deriving DecidableEq, Repr

/-- Models `LinearLayoutGenerator._resolve_state`: `fading` once the timestamp has
reached the fade deadline (timestamps carry no timezone here). -/
def resolve_state (n : ChannelNodeState) (timestamp : ℚ) : PanelState :=
  match n.fade_deadline with
  | none => .active
  | some deadline => if deadline ≤ timestamp then .fading else .active

/-- Models `max(child.weight, 0.0) or 1.0`: Python `or` replaces a 0.0 left operand
by 1.0. -/
def pad_weight (w : ℚ) : ℚ :=
  if max w 0 = 0 then 1 else max w 0

/-- Models `sum(max(child.weight, 0.0) or 1.0 for child in child_list)`. -/
def total_pad_weight (children : List (String × ChannelNodeState)) : ℚ :=
  (children.map fun c => pad_weight c.2.weight).sum

/-- The default `min_extent` of `LinearLayoutGenerator.__init__` (0.02). -/
def default_min_extent : ℚ := 1/50

mutual

/-- Models `LinearLayoutGenerator._populate_frames`: emit the frame of a leaf, or
the parent band (50% height with history messages, 20% without) followed by
the children tiled side by side in the remaining band.  Colour-service state
is threaded in emission order. -/
def populate_frames (min_extent : ℚ) (svc : ChannelTreeService) (timestamp : ℚ) :
    ChannelNodeState → LayoutRect → Nat → ColorServiceState →
    List LayoutFrame × ColorServiceState
  | n@(.mk _ _ _ _ _ _ ch), rect, depth, cs =>
    match ch with
    | [] =>
      if n.path.isEmpty then ([], cs)
      else
        let sc := get_scheme_for_channel cs n.path
        ([{ path := n.path, rect := rect, state := resolve_state n timestamp
            weight := n.weight, generated_at := timestamp, colors := sc.1 }], sc.2)
    | _ :: _ =>
      let include_self := !n.path.isEmpty
      let history := if include_self then svc.get_history n.path else []
      let parent_fraction : ℚ := if history.isEmpty then 1/5 else 1/2
      let children_fraction : ℚ := 1 - parent_fraction
      let pc :=
        if include_self then
          let self_rect : LayoutRect :=
            ⟨rect.x, rect.y, rect.width, parent_fraction * rect.height⟩
          let children_rect : LayoutRect :=
            ⟨rect.x, rect.y + parent_fraction * rect.height, rect.width,
             children_fraction * rect.height⟩
          let sc := get_scheme_for_channel cs n.path
          (([{ path := n.path, rect := self_rect, state := resolve_state n timestamp
               weight := n.weight, generated_at := timestamp, colors := sc.1 }] :
              List LayoutFrame), children_rect, sc.2)
        else (([] : List LayoutFrame), rect, cs)
      let total0 := total_pad_weight ch
      let total_weight := if total0 ≤ 0 then (ch.length : ℚ) else total0
      let out := populate_children min_extent svc timestamp depth pc.2.1 total_weight
        ch 1 pc.2.1.x pc.2.2
      (pc.1 ++ out.1, out.2)

/-- The child loop of `_populate_frames`: each child takes a fraction of the
children band (weight-proportional below depth 0, forced to 1 at depth 0,
clipped below by `min_extent` and above by the remaining fraction; the last
child takes exactly what remains), then recurses at depth + 1. -/
def populate_children (min_extent : ℚ) (svc : ChannelTreeService) (timestamp : ℚ)
    (depth : Nat) (children_rect : LayoutRect) (total_weight : ℚ) :
    List (String × ChannelNodeState) → ℚ → ℚ → ColorServiceState →
    List LayoutFrame × ColorServiceState
  | [], _, _, cs => ([], cs)
  | (_, child) :: rest, remaining, cursor, cs =>
    let w := if depth = 0 then 1 else pad_weight child.weight
    let raw_fraction := if total_weight ≠ 0 then w / total_weight else 0
    let fraction :=
      if rest.isEmpty then remaining else min (max raw_fraction min_extent) remaining
    let width := fraction * children_rect.width
    let child_rect : LayoutRect := ⟨cursor, children_rect.y, width, children_rect.height⟩
    let out1 := populate_frames min_extent svc timestamp child child_rect (depth + 1) cs
    let out2 := populate_children min_extent svc timestamp depth children_rect
      total_weight rest (max 0 (remaining - fraction)) (cursor + width) out1.2
    (out1.1 ++ out2.1, out2.2)

end

/-- Models `LinearLayoutGenerator.generate`: run `cleanup_expired(timestamp)` on the
tree, return no frames when the root has no children, otherwise populate
starting from the unit square at depth 0. -/
def generate (min_extent : ℚ) (svc : ChannelTreeService) (timestamp : ℚ)
    (cs : ColorServiceState) : List LayoutFrame × ColorServiceState :=
  let svc' := svc.cleanup_expired timestamp
  if svc'.root.children.isEmpty then ([], cs)
  else populate_frames min_extent svc' timestamp svc'.root ⟨0, 0, 1, 1⟩ 0 cs

/-! ## HTTP surface validators (`api/main.py`) -/

/-- Python `raw.split(".")` on the character list: splitting an empty string
gives one empty segment, and consecutive separators give empty segments. -/
def split_dot_chars : List Char → List (List Char)
  | [] => [[]]
  | c :: rest =>
    if c = '.' then [] :: split_dot_chars rest
    else
      match split_dot_chars rest with
      | [] => [[c]]
      | seg :: segs => (c :: seg) :: segs

/-- Python `raw.split(".")`. -/
def split_dot (raw : String) : List String :=
  (split_dot_chars raw.data).map fun cs => String.mk cs

/-- Python `str.lower()` (character-wise lowercasing; the inputs of interest
are ASCII). -/
def str_lower (s : String) : String :=
  String.mk (s.data.map Char.toLower)

/-- Models `main._parse_channel`: split the wire string on `.`, keep the truthy
(non-empty) segments, and fail (HTTP 422 `channel path must not be empty`)
when none remain.  `none` models the raised `HTTPException`. -/
def parse_channel (raw : String) : Option (List String) :=
  let segments := (split_dot raw).filter fun s => s ≠ ""
  if segments.isEmpty then none else some segments

/-- The severity step of `main.ingest_message`:
`MessageSeverity(payload.severity.lower())`, where a `ValueError` becomes a
422 `invalid severity value` (modelled as `none`). -/
def parse_severity (s : String) : Option MessageSeverity :=
  match str_lower s with
  | "debug" => some .debug
  | "info" => some .info
  | "warn" => some .warn
  | "error" => some .error
  | _ => none

/-! ## Operation sequences over one service instance -/

/-- One public mutating operation of the channel tree. -/
inductive Op : Type where
  | ingest (m : Message) (weight_delta : ℚ)
  | prune (path : List String)
  | cleanup (now : ℚ)
deriving DecidableEq

/-- Apply one operation; the `ValueError` of `prune([])` aborts the call
before any mutation, leaving the service unchanged. -/
def Op.apply (svc : ChannelTreeService) : Op → ChannelTreeService
  | .ingest m δ => svc.ingest m δ
  | .prune p => (svc.prune p).getD svc
  | .cleanup now => svc.cleanup_expired now

/-- Run a sequence of operations on a fresh service instance. -/
def run_ops (ops : List Op) : ChannelTreeService :=
  ops.foldl Op.apply ChannelTreeService.init

/-- The exact channel targeted when the operation is an ingest. -/
def Op.ingest_target : Op → Option (List String)
  | .ingest m _ => some m.channel_path
  | .prune _ => none
  | .cleanup _ => none

/-- A concrete info message used by witnesses and counterexamples
(default lifespan 30 s, as in the source). -/
def sampleMessage (p : List String) (t : ℚ) : Message :=
  { id := "m", channel_path := p, payload := "x", received_at := t
    severity := .info, metadata := none, lifespan_seconds := 30 }

/-- Continue a colour-query run from an intermediate state of one service
instance. -/
def queries_from (cs : ColorServiceState) (ks : List String) : ColorServiceState :=
  ks.foldl (fun c k => (get_incremental_scheme c k).2) cs

/-- The fold of repeated colour queries over one service instance. -/
def color_queries (ks : List String) : ColorServiceState :=
  queries_from ColorServiceState.init ks

/-- Invariant of the increment assignment state: indices are below the
counter and pairwise distinct. -/
def ColorInv (cs : ColorServiceState) : Prop :=
  (∀ pr ∈ cs.channel_index_map, pr.2 < cs.next_index) ∧
  cs.channel_index_map.Pairwise fun a b => a.2 ≠ b.2

/-- A rectangle lying inside the unit square with non-negative extent
(the invariant claimed for every emitted frame). -/
def GoodRect (r : LayoutRect) : Prop :=
  0 ≤ r.x ∧ 0 ≤ r.y ∧ 0 ≤ r.width ∧ 0 ≤ r.height ∧
    r.x + r.width ≤ 1 ∧ r.y + r.height ≤ 1

instance (r : LayoutRect) : Decidable (GoodRect r) := by
  unfold GoodRect
  infer_instance

/-! ## General lemmas about the association-list dictionaries -/

theorem dropWhile_idem {α : Type} (p : α → Bool) (l : List α) :
    (l.dropWhile p).dropWhile p = l.dropWhile p := by
  cases h : l.dropWhile p with
  | nil => simp
  | cons a as =>
    have := List.head_dropWhile_not p l (by simp [h])
    simp only [h, List.head_cons] at this
    simp [List.dropWhile_cons, this]

theorem mem_assocSet {α : Type} {l : List (String × α)} {key : String} {v : α} :
    ∀ pr ∈ assocSet l key v, pr.2 = v ∨ pr ∈ l := by
  induction l with
  | nil => simp [assocSet]
  | cons hd tl ih =>
    intro pr hpr
    simp only [assocSet] at hpr
    split at hpr
    · rcases List.mem_cons.mp hpr with h | h
      · exact Or.inl (by simp [h])
      · exact Or.inr (List.mem_cons_of_mem _ h)
    · rcases List.mem_cons.mp hpr with h | h
      · exact Or.inr (h ▸ List.mem_cons_self _ _)
      · rcases ih pr h with h2 | h2
        · exact Or.inl h2
        · exact Or.inr (List.mem_cons_of_mem _ h2)

theorem mem_assocErase {α : Type} {l : List (String × α)} {key : String} :
    ∀ pr ∈ assocErase l key, pr ∈ l := by
  induction l with
  | nil => simp [assocErase]
  | cons hd tl ih =>
    intro pr hpr
    simp only [assocErase] at hpr
    split at hpr
    · exact List.mem_cons_of_mem _ hpr
    · rcases List.mem_cons.mp hpr with h | h
      · exact h ▸ List.mem_cons_self _ _
      · exact List.mem_cons_of_mem _ (ih pr h)

theorem assocLookup_assocSet_self {α : Type} (l : List (String × α)) (key : String) (v : α) :
    assocLookup (assocSet l key v) key = some v := by
  induction l with
  | nil => simp [assocSet, assocLookup]
  | cons hd tl ih =>
    by_cases h : hd.1 = key
    · simp [assocSet, assocLookup, h]
    · simp [assocSet, assocLookup, h, ih]

theorem assocLookup_assocSet_ne {α : Type} (l : List (String × α)) (key k : String)
    (v : α) (hne : key ≠ k) :
    assocLookup (assocSet l key v) k = assocLookup l k := by
  induction l with
  | nil => simp [assocSet, assocLookup, hne]
  | cons hd tl ih =>
    by_cases h : hd.1 = key
    · simp [assocSet, assocLookup, h, hne]
    · simp only [assocSet, assocLookup, h, if_false]
      by_cases h2 : hd.1 = k <;> simp [h2, ih]

theorem assocLookup_append_right {α : Type} (l : List (String × α)) (key : String) (v : α)
    (h : assocLookup l key = none) :
    assocLookup (l ++ [(key, v)]) key = some v := by
  induction l with
  | nil => simp [assocLookup]
  | cons hd tl ih =>
    simp only [assocLookup] at h ⊢
    split at h
    · exact absurd h (by simp)
    · rename_i hne
      simpa [hne] using ih h

theorem assocLookup_some_mem {α : Type} {l : List (String × α)} {key : String} {v : α}
    (h : assocLookup l key = some v) : (key, v) ∈ l := by
  induction l with
  | nil => simp [assocLookup] at h
  | cons hd tl ih =>
    simp only [assocLookup] at h
    split at h
    · rename_i heq
      obtain ⟨k0, v0⟩ := hd
      simp_all
    · exact List.mem_cons_of_mem _ (ih h)

theorem histLookup_none_of_not_mem_keys {α : Type} {l : List (List String × α)}
    {key : List String} (h : key ∉ l.map Prod.fst) : histLookup l key = none := by
  induction l with
  | nil => rfl
  | cons hd tl ih =>
    simp only [List.map_cons, List.mem_cons] at h
    push_neg at h
    simp only [histLookup]
    rw [if_neg (fun he => h.1 (by simp [he]))]
    exact ih h.2

theorem histLookup_histErase_self {α : Type} {l : List (List String × α)}
    {key : List String} (hnd : (l.map Prod.fst).Nodup) :
    histLookup (histErase l key) key = none := by
  induction l with
  | nil => rfl
  | cons hd tl ih =>
    simp only [List.map_cons, List.nodup_cons] at hnd
    simp only [histErase]
    split
    · rename_i heq
      exact histLookup_none_of_not_mem_keys (heq ▸ hnd.1)
    · rename_i hne
      simp only [histLookup, if_neg hne]
      exact ih hnd.2

theorem histLookup_histErase_none {α : Type} {l : List (List String × α)}
    {key k : List String} (h : histLookup l k = none) :
    histLookup (histErase l key) k = none := by
  induction l with
  | nil => rfl
  | cons hd tl ih =>
    simp only [histLookup] at h
    split at h
    · exact absurd h (by simp)
    · rename_i hne
      simp only [histErase]
      split
      · exact h
      · simpa [histLookup, hne] using ih h

theorem histLookup_histSet_ne {α : Type} (l : List (List String × α))
    (key k : List String) (v : α) (hne : key ≠ k) :
    histLookup (histSet l key v) k = histLookup l k := by
  induction l with
  | nil => simp [histSet, histLookup, hne]
  | cons hd tl ih =>
    by_cases h : hd.1 = key
    · simp [histSet, histLookup, h, hne]
    · simp only [histSet, histLookup, h, if_false]
      by_cases h2 : hd.1 = k <;> simp [h2, ih]

theorem histLookup_mapValues_none {α : Type} {l : List (List String × α)}
    {k : List String} (g : List String × α → α) (h : histLookup l k = none) :
    histLookup (l.map fun pv => (pv.1, g pv)) k = none := by
  induction l with
  | nil => rfl
  | cons hd tl ih =>
    simp only [histLookup] at h
    split at h
    · exact absurd h (by simp)
    · rename_i hne
      simpa [histLookup, hne] using ih h

/-! ## Claim C9: severity validation is case-insensitive -/

/-- C9: the ingest endpoint lowercases the submitted severity before looking
it up, accepting e.g. `WARN` and `Error`, and rejects with 422
`invalid severity value` exactly when the lowercased string is not one of
`debug`, `info`, `warn`, `error`. -/
theorem C9_severity_case_insensitive :
    (∀ s : String,
      parse_severity s = none ↔ str_lower s ∉ ["debug", "info", "warn", "error"]) ∧
    parse_severity "WARN" = some .warn ∧ parse_severity "Error" = some .error := by
  refine ⟨fun s => ?_, by with_unfolding_all decide, by with_unfolding_all decide⟩
  unfold parse_severity
  split
  all_goals try simp_all

/-- C9 witness: an unknown severity such as `CRITICAL` is rejected. -/
theorem C9_witness : parse_severity "CRITICAL" = none :=
  (C9_severity_case_insensitive.1 "CRITICAL").mpr (by with_unfolding_all decide)

/-! ## Claim C3: empty wire segments are dropped, not rejected -/

/-- C3 counterexample: the wire channel `"a..b"` contains an empty segment,
yet `_parse_channel` accepts it (no 422), returning the segments
`["a", "b"]` for ingestion. -/
theorem C3_counterexample :
    "" ∈ split_dot "a..b" ∧ parse_channel "a..b" = some ["a", "b"] := by decide

/-- C3 as amended: `_parse_channel` silently drops empty segments; the 422
`channel path must not be empty` is raised exactly when every dot-separated
segment of the wire string is empty, and an accepted channel is the list of
surviving non-empty segments (at least one). -/
theorem C3_empty_segments_dropped :
    ∀ raw : String,
      (parse_channel raw = none ↔ ∀ s ∈ split_dot raw, s = "") ∧
      ∀ l, parse_channel raw = some l →
        l = (split_dot raw).filter (fun s => s ≠ "") ∧ l ≠ [] := by
  intro raw
  simp only [parse_channel]
  split
  · rename_i h
    rw [List.isEmpty_iff, List.filter_eq_nil_iff] at h
    constructor
    · simp only [true_iff]
      intro s hs
      simpa using h s hs
    · intro l hl
      exact absurd hl (by simp)
  · rename_i h
    rw [List.isEmpty_iff, List.filter_eq_nil_iff] at h
    push_neg at h
    constructor
    · constructor
      · intro hco
        exact absurd hco (by simp)
      · intro hall
        obtain ⟨s, hs, hne⟩ := h
        exact absurd (hall s hs) (by simpa using hne)
    · intro l hl
      have hleq : (split_dot raw).filter (fun s => s ≠ "") = l :=
        Option.some_injective _ hl
      refine ⟨hleq.symm, fun hnil => ?_⟩
      obtain ⟨s, hs, hne⟩ := h
      have hmem : s ∈ (split_dot raw).filter (fun s => s ≠ "") := by
        exact List.mem_filter.mpr ⟨hs, hne⟩
      rw [hleq, hnil] at hmem
      simp at hmem

/-- C3 witness: `".a.b"` is accepted as `["a", "b"]`, the non-empty
segments. -/
theorem C3_witness :
    parse_channel ".a.b" = some ["a", "b"] ∧
    (["a", "b"] : List String) = (split_dot ".a.b").filter (fun s => s ≠ "") ∧
    (["a", "b"] : List String) ≠ [] :=
  ⟨by with_unfolding_all decide,
   (C3_empty_segments_dropped ".a.b").2 ["a", "b"] (by with_unfolding_all decide)⟩

/-! ## Claim C1: depth-0 split is not an equal split -/

/-- C1 is contradicted by the code: with top-level channels `alpha` (three
ingests of weight 1) and `bravo` (one ingest), the depth-0 loop forces each
child's numerator to 1 but divides by the weighted total 4, so `alpha` gets
width 1/4 and `bravo` (last child) the remaining 3/4 — not 1/2 each as the
equal-split claim requires.  Both frames do have y = 0. -/
theorem C1_depth0_split_unequal :
    ((generate default_min_extent
        ((((ChannelTreeService.init.ingest (sampleMessage ["alpha"] 0) 1).ingest
            (sampleMessage ["alpha"] 0) 1).ingest (sampleMessage ["alpha"] 0) 1).ingest
            (sampleMessage ["bravo"] 0) 1) 0 .init).1.map fun f =>
        (f.path, f.rect.width, f.rect.y))
      = [(["alpha"], 1/4, 0), (["bravo"], 3/4, 0)] := by with_unfolding_all decide

/-! ## Claim C2: prune drops only the exact path's history entry -/

/-- C2 counterexample: ingest one message at `a.b`, then `prune(("a",))`.
The claim says every history entry strictly under the pruned path is
removed, but the entry for `("a", "b")` survives the prune. -/
theorem C2_counterexample :
    ((ChannelTreeService.init.ingest (sampleMessage ["a", "b"] 0) 1).prune ["a"]).map
      (fun s => (histLookup s.history ["a", "b"]).isSome) = some true := by
  with_unfolding_all decide

/-! ## Claim C4: ingest sets the timestamp unconditionally -/

/-- C4 counterexample: after ingesting a message received at t = 10 and then
one received at t = 5 on the same channel, `last_message_at` is 5 — `touch`
assigns the new timestamp unconditionally, so the claim's no-regression
guarantee fails. -/
theorem C4_counterexample :
    ((((ChannelTreeService.init.ingest (sampleMessage ["a"] 10) 1).ingest
        (sampleMessage ["a"] 5) 1).get_node ["a"]).map
        ChannelNodeState.last_message_at) = some (some 5) ∧ (5 : ℚ) < 10 := by
  with_unfolding_all decide

/-! ## Claim C5: cleanup_expired is not idempotent -/

/-- C5 counterexample: ingest one message at `a.b` (received 0, lifespan 30)
and run `cleanup_expired(40)` twice.  The first call empties the history and
prunes the leaf `a.b`; only the second call prunes `a`, which became a stale
empty leaf when its child was removed — so the two states differ. -/
theorem C5_counterexample :
    ¬ (((ChannelTreeService.init.ingest (sampleMessage ["a", "b"] 0) 1).cleanup_expired
          40).cleanup_expired 40
        = (ChannelTreeService.init.ingest (sampleMessage ["a", "b"] 0) 1).cleanup_expired
          40) := by
  intro h
  exact absurd (congrArg (fun s => (s.get_node ["a"]).isSome) h)
    (by with_unfolding_all decide)

/-- C5 as amended: the expiry pass of `cleanup_expired` is idempotent — a
second run with the same `now` drops no further history messages — but the
prune pass is not: nodes whose children were all pruned by the first call
may be pruned by the second. -/
theorem C5_phase1_idempotent :
    ∀ (svc : ChannelTreeService) (now : ℚ),
      (svc.cleanup_phase1 now).cleanup_phase1 now = svc.cleanup_phase1 now := by
  intro svc now
  obtain ⟨r, ho, de, hist⟩ := svc
  simp only [ChannelTreeService.cleanup_phase1, List.map_map]
  congr 1
  apply List.map_congr_left
  intro pv _
  simp [Function.comp, dropWhile_idem]

/-! ## Claim C2 (amended): prune pops exactly the pruned path's history -/

theorem get_node_aux_cons (n : ChannelNodeState) (s : String) (rest : List String) :
    ChannelTreeService.get_node_aux n (s :: rest)
      = match assocLookup n.children s with
        | none => none
        | some c => ChannelTreeService.get_node_aux c rest := rfl

theorem get_node_aux_append (s : String) :
    ∀ (xs : List String) (n : ChannelNodeState),
      ChannelTreeService.get_node_aux n (xs ++ [s])
        = match ChannelTreeService.get_node_aux n xs with
          | none => none
          | some parent => assocLookup parent.children s := by
  intro xs
  induction xs with
  | nil =>
    intro n
    rw [List.nil_append, get_node_aux_cons]
    cases h : assocLookup n.children s <;>
      simp [ChannelTreeService.get_node_aux, h]
  | cons x xs ih =>
    intro n
    rw [List.cons_append, get_node_aux_cons, get_node_aux_cons]
    cases assocLookup n.children x with
    | none => rfl
    | some c => exact ih c

/-- C2 as amended: pruning a non-empty path that is present in the tree
succeeds and removes the history entry for that exact path; entries for
paths strictly under it are retained (see the counterexample). -/
theorem C2_prune_removes_exact_history :
    ∀ (svc : ChannelTreeService) (q : List String) (s : String),
      (svc.history.map Prod.fst).Nodup →
      (svc.get_node (q ++ [s])).isSome = true →
      ∃ svc2, svc.prune (q ++ [s]) = some svc2 ∧
        histLookup svc2.history (q ++ [s]) = none := by
  intro svc q s hnd hsome
  obtain ⟨node, hget⟩ := Option.isSome_iff_exists.mp hsome
  have hsplit : ∃ parent, svc.get_node q = some parent ∧
      assocLookup parent.children s = some node := by
    unfold ChannelTreeService.get_node at hget ⊢
    rw [get_node_aux_append] at hget
    cases hq : ChannelTreeService.get_node_aux svc.root q with
    | none => rw [hq] at hget; exact absurd hget (by simp)
    | some parent => rw [hq] at hget; exact ⟨parent, rfl, hget⟩
  obtain ⟨parent, hpar, hchild⟩ := hsplit
  unfold ChannelTreeService.prune
  rw [List.getLast?_concat, List.dropLast_concat]
  simp only [hpar, hchild]
  exact ⟨_, rfl, histLookup_histErase_self hnd⟩

/-- C2 witness: prune `a.b` from a service with one message there; the
exact history entry is removed. -/
theorem C2_witness :
    ((ChannelTreeService.init.ingest (sampleMessage ["a", "b"] 0) 1).history.map
      Prod.fst).Nodup ∧
    ∃ svc2,
      (ChannelTreeService.init.ingest (sampleMessage ["a", "b"] 0) 1).prune
        (["a"] ++ ["b"]) = some svc2 ∧
      histLookup svc2.history (["a"] ++ ["b"]) = none :=
  ⟨by with_unfolding_all decide,
   C2_prune_removes_exact_history _ ["a"] "b" (by with_unfolding_all decide)
     (by with_unfolding_all decide)⟩

/-! ## Claim C10: history is keyed only by exact ingest targets -/

theorem histLookup_none_ingest {svc : ChannelTreeService} {m : Message} {δ : ℚ}
    {p : List String} (hne : m.channel_path ≠ p)
    (h : histLookup svc.history p = none) :
    histLookup (svc.ingest m δ).history p = none := by
  simp only [ChannelTreeService.ingest, ChannelTreeService.append_history]
  rw [histLookup_histSet_ne _ _ _ _ hne]
  exact h

theorem histLookup_none_prune {svc : ChannelTreeService} {q p : List String}
    (h : histLookup svc.history p = none) :
    histLookup ((svc.prune q).getD svc).history p = none := by
  simp only [ChannelTreeService.prune]
  split
  · exact h
  · split
    · exact h
    · split
      · exact h
      · exact histLookup_histErase_none h

theorem histLookup_none_prune_fold {p : List String} :
    ∀ (ps : List (List String)) (svc : ChannelTreeService),
      histLookup svc.history p = none →
      histLookup (ps.foldl (fun s q => (s.prune q).getD s) svc).history p = none := by
  intro ps
  induction ps with
  | nil => intro svc h; exact h
  | cons q rest ih =>
    intro svc h
    exact ih _ (histLookup_none_prune h)

theorem histLookup_none_cleanup {svc : ChannelTreeService} {now : ℚ}
    {p : List String} (h : histLookup svc.history p = none) :
    histLookup (svc.cleanup_expired now).history p = none := by
  simp only [ChannelTreeService.cleanup_expired]
  apply histLookup_none_prune_fold
  simp only [ChannelTreeService.cleanup_phase1]
  exact histLookup_mapValues_none _ h

/-- C10: `get_history` is total with default `[]`; a path that is never the
exact channel of an ingested message — interior nodes created only by
deeper ingests included — has no history entry after any operation
sequence, so `get_history` returns the empty list for it. -/
theorem C10_get_history_empty_for_untargeted :
    ∀ (ops : List Op) (p : List String),
      (∀ op ∈ ops, op.ingest_target ≠ some p) →
      (run_ops ops).get_history p = [] := by
  intro ops p hops
  have key : ∀ (l : List Op) (svc : ChannelTreeService),
      (∀ op ∈ l, op.ingest_target ≠ some p) →
      histLookup svc.history p = none →
      histLookup (l.foldl Op.apply svc).history p = none := by
    intro l
    induction l with
    | nil => intro svc _ h; exact h
    | cons op rest ih =>
      intro svc hl h
      refine ih _ (fun o ho => hl o (List.mem_cons_of_mem _ ho)) ?_
      cases op with
      | ingest m δ =>
        have hne : m.channel_path ≠ p := by
          intro he
          exact hl _ (List.mem_cons_self _ _) (by simp [Op.ingest_target, he])
        exact histLookup_none_ingest hne h
      | prune q => exact histLookup_none_prune h
      | cleanup now => exact histLookup_none_cleanup h
  have : histLookup (run_ops ops).history p = none :=
    key ops ChannelTreeService.init hops rfl
  simp [ChannelTreeService.get_history, this]

/-- C10 witness: a run that ingests only at `a.b` has empty history at the
interior path `a`. -/
theorem C10_witness :
    (∀ op ∈ [Op.ingest (sampleMessage ["a", "b"] 0) 1, Op.cleanup 40],
      op.ingest_target ≠ some ["a"]) ∧
    (run_ops [Op.ingest (sampleMessage ["a", "b"] 0) 1, Op.cleanup 40]).get_history
      ["a"] = [] :=
  ⟨by with_unfolding_all decide,
   C10_get_history_empty_for_untargeted _ ["a"] (by with_unfolding_all decide)⟩

/-! ## Claim C7: weights stay non-negative -/

theorem nodesNonnegList_iff {ch : List (String × ChannelNodeState)} :
    nodesNonnegList ch = true ↔ ∀ pr ∈ ch, nodesNonneg pr.2 = true := by
  induction ch with
  | nil => simp [nodesNonnegList]
  | cons hd tl ih =>
    obtain ⟨s, n⟩ := hd
    simp [nodesNonnegList, Bool.and_eq_true, ih]

theorem nodesNonneg_mk {p w l f lk c ch} :
    nodesNonneg (.mk p w l f lk c ch) = true ↔
      0 ≤ w ∧ ∀ pr ∈ ch, nodesNonneg pr.2 = true := by
  simp [nodesNonneg, Bool.and_eq_true, nodesNonnegList_iff]

theorem nodesNonneg_touch {n : ChannelNodeState} (ts δ : ℚ)
    (h : nodesNonneg n = true) : nodesNonneg (n.touch ts δ) = true := by
  cases n with
  | mk p w l f lk c ch =>
    rw [nodesNonneg_mk] at h
    exact nodesNonneg_mk.mpr ⟨le_max_right _ _, h.2⟩

theorem nodesNonneg_schedule_fade {n : ChannelNodeState} (hold decay : ℚ)
    (h : nodesNonneg n = true) : nodesNonneg (n.schedule_fade hold decay) = true := by
  cases n with
  | mk p w l f lk c ch =>
    cases l <;> simpa [ChannelNodeState.schedule_fade, nodesNonneg_mk] using
      nodesNonneg_mk.mp h

theorem nodesNonneg_ensure_child {n : ChannelNodeState} (seg : String) (ts : ℚ)
    (h : nodesNonneg n = true) :
    nodesNonneg (ChannelTreeService.ensure_child n seg ts) = true := by
  unfold ChannelTreeService.ensure_child
  cases hc : assocLookup n.children seg with
  | some c0 =>
    cases n with
    | mk p w l f lk c ch =>
      rw [nodesNonneg_mk] at h
      exact h.2 _ (assocLookup_some_mem hc)
  | none => exact nodesNonneg_mk.mpr ⟨le_refl 0, by simp⟩

theorem nodesNonneg_ingest_along (hold decay ts δ : ℚ) :
    ∀ (path : List String) (n : ChannelNodeState), nodesNonneg n = true →
      nodesNonneg (ChannelTreeService.ingest_along hold decay ts δ path n) = true := by
  intro path
  induction path with
  | nil => intro n h; exact h
  | cons seg rest ih =>
    intro n h
    have hc1 := nodesNonneg_schedule_fade hold decay
      (nodesNonneg_touch ts δ (nodesNonneg_ensure_child seg ts h))
    cases n with
    | mk p w l f lk c ch =>
      rw [nodesNonneg_mk] at h
      simp only [ChannelTreeService.ingest_along, ChannelNodeState.withChildren]
      rw [nodesNonneg_mk]
      refine ⟨h.1, fun pr hpr => ?_⟩
      rcases mem_assocSet pr hpr with h2 | h2
      · rw [h2]
        exact ih _ hc1
      · exact h.2 pr h2

theorem nodesNonneg_ingest {svc : ChannelTreeService} {m : Message} {δ : ℚ}
    (h : nodesNonneg svc.root = true) :
    nodesNonneg (svc.ingest m δ).root = true :=
  nodesNonneg_ingest_along _ _ _ _ _ _ (nodesNonneg_touch _ _ h)

theorem nodesNonneg_remove_child_at :
    ∀ (path : List String) (n : ChannelNodeState) (seg : String),
      nodesNonneg n = true → nodesNonneg (remove_child_at n path seg) = true := by
  intro path
  induction path with
  | nil =>
    intro n seg h
    cases n with
    | mk p w l f lk c ch =>
      rw [nodesNonneg_mk] at h
      simp only [remove_child_at, ChannelNodeState.withChildren]
      exact nodesNonneg_mk.mpr ⟨h.1, fun pr hpr => h.2 pr (mem_assocErase pr hpr)⟩
  | cons s rest ih =>
    intro n seg h
    cases n with
    | mk p w l f lk c ch =>
      rw [nodesNonneg_mk] at h
      simp only [remove_child_at]
      cases hc : assocLookup (ChannelNodeState.mk p w l f lk c ch).children s with
      | none => exact nodesNonneg_mk.mpr h
      | some c0 =>
        simp only [ChannelNodeState.withChildren]
        refine nodesNonneg_mk.mpr ⟨h.1, fun pr hpr => ?_⟩
        rcases mem_assocSet pr hpr with h2 | h2
        · rw [h2]
          exact ih _ _ (h.2 _ (assocLookup_some_mem hc))
        · exact h.2 pr h2

theorem nodesNonneg_dec_weight {n : ChannelNodeState} (δ : ℚ)
    (h : nodesNonneg n = true) : nodesNonneg (dec_weight δ n) = true := by
  cases n with
  | mk p w l f lk c ch =>
    rw [nodesNonneg_mk] at h
    exact nodesNonneg_mk.mpr ⟨le_max_right _ _, h.2⟩

theorem nodesNonneg_dec_along (δ : ℚ) :
    ∀ (path : List String) (n : ChannelNodeState), nodesNonneg n = true →
      nodesNonneg (dec_along δ n path) = true := by
  intro path
  induction path with
  | nil => intro n h; exact nodesNonneg_dec_weight δ h
  | cons s rest ih =>
    intro n h
    have h' := nodesNonneg_dec_weight (n := n) δ h
    simp only [dec_along]
    cases hc : assocLookup (dec_weight δ n).children s with
    | none => simpa [hc] using h'
    | some c0 =>
      simp only [hc]
      cases hn : dec_weight δ n with
      | mk p w l f lk c ch =>
        rw [hn] at h' hc
        rw [nodesNonneg_mk] at h'
        simp only [ChannelNodeState.withChildren]
        refine nodesNonneg_mk.mpr ⟨h'.1, fun pr hpr => ?_⟩
        rcases mem_assocSet pr hpr with h2 | h2
        · rw [h2]
          exact ih _ (h'.2 _ (assocLookup_some_mem hc))
        · exact h'.2 pr h2

theorem nodesNonneg_prune {svc : ChannelTreeService} {q : List String}
    (h : nodesNonneg svc.root = true) :
    nodesNonneg ((svc.prune q).getD svc).root = true := by
  simp only [ChannelTreeService.prune]
  split
  · exact h
  · split
    · exact h
    · split
      · exact h
      · exact nodesNonneg_dec_along _ _ _ (nodesNonneg_remove_child_at _ _ _ h)

theorem nodesNonneg_prune_fold :
    ∀ (ps : List (List String)) (svc : ChannelTreeService),
      nodesNonneg svc.root = true →
      nodesNonneg ((ps.foldl (fun s q => (s.prune q).getD s) svc)).root = true := by
  intro ps
  induction ps with
  | nil => intro svc h; exact h
  | cons q rest ih => intro svc h; exact ih _ (nodesNonneg_prune h)

theorem nodesNonneg_cleanup {svc : ChannelTreeService} {now : ℚ}
    (h : nodesNonneg svc.root = true) :
    nodesNonneg (svc.cleanup_expired now).root = true := by
  simp only [ChannelTreeService.cleanup_expired]
  exact nodesNonneg_prune_fold _ _ h

/-- C7: every node's weight stays non-negative across any sequence of
ingest (any delta, including δ ≤ 0 — `touch` floors at 0 and still updates
timestamps), prune (ancestor subtraction floored at 0) and cleanup. -/
theorem C7_weights_nonneg :
    ∀ (ops : List Op) (svc : ChannelTreeService),
      nodesNonneg svc.root = true →
      nodesNonneg (ops.foldl Op.apply svc).root = true := by
  intro ops
  induction ops with
  | nil => intro svc h; exact h
  | cons op rest ih =>
    intro svc h
    refine ih _ ?_
    cases op with
    | ingest m δ => exact nodesNonneg_ingest h
    | prune q => exact nodesNonneg_prune h
    | cleanup now => exact nodesNonneg_cleanup h

/-- C7 witness: a concrete mixed run (including an ingest with negative
delta) from the initial service keeps all weights non-negative. -/
theorem C7_witness :
    nodesNonneg ChannelTreeService.init.root = true ∧
    nodesNonneg
      (([Op.ingest (sampleMessage ["a", "b"] 0) 1,
         Op.ingest (sampleMessage ["a"] 1) (-5),
         Op.prune ["a", "b"], Op.cleanup 40]).foldl Op.apply
        ChannelTreeService.init).root = true :=
  ⟨by with_unfolding_all decide,
   C7_weights_nonneg _ ChannelTreeService.init (by with_unfolding_all decide)⟩

/-! ## Claim C4 (amended): ingest adds delta and sets the timestamp -/

theorem touch_children {n : ChannelNodeState} (ts δ : ℚ) :
    (n.touch ts δ).children = n.children := by cases n; rfl

theorem touch_weight {n : ChannelNodeState} (ts δ : ℚ) :
    (n.touch ts δ).weight = max (n.weight + δ) 0 := by cases n; rfl

theorem touch_last {n : ChannelNodeState} (ts δ : ℚ) :
    (n.touch ts δ).last_message_at = some ts := by cases n; rfl

theorem schedule_fade_children {n : ChannelNodeState} (hold decay : ℚ) :
    (n.schedule_fade hold decay).children = n.children := by
  cases n with
  | mk p w l f lk c ch => cases l <;> rfl

theorem schedule_fade_weight {n : ChannelNodeState} (hold decay : ℚ) :
    (n.schedule_fade hold decay).weight = n.weight := by
  cases n with
  | mk p w l f lk c ch => cases l <;> rfl

theorem schedule_fade_last {n : ChannelNodeState} (hold decay : ℚ) :
    (n.schedule_fade hold decay).last_message_at = n.last_message_at := by
  cases n with
  | mk p w l f lk c ch => cases l <;> rfl

theorem ingest_along_own (hold decay ts δ : ℚ) (path : List String)
    (n : ChannelNodeState) :
    (ChannelTreeService.ingest_along hold decay ts δ path n).weight = n.weight ∧
    (ChannelTreeService.ingest_along hold decay ts δ path n).last_message_at
      = n.last_message_at := by
  cases path with
  | nil => exact ⟨rfl, rfl⟩
  | cons s rest =>
    cases n with
    | mk p w l f lk c ch => exact ⟨rfl, rfl⟩

theorem withChildren_children (n : ChannelNodeState)
    (ch2 : List (String × ChannelNodeState)) :
    (n.withChildren ch2).children = ch2 := by cases n; rfl

theorem ingest_along_cons (hold decay ts δ : ℚ) (s : String) (rest : List String)
    (n : ChannelNodeState) :
    ChannelTreeService.ingest_along hold decay ts δ (s :: rest) n
      = n.withChildren (assocSet n.children s
          (ChannelTreeService.ingest_along hold decay ts δ rest
            (((ChannelTreeService.ensure_child n s ts).touch ts
              δ).schedule_fade hold decay))) := rfl

theorem ensure_child_weight_eq {n : ChannelNodeState} (s : String) (ts : ℚ) :
    (ChannelTreeService.ensure_child n s ts).weight
      = (match ChannelTreeService.get_node_aux n [s] with
          | some nd => nd.weight
          | none => 0) := by
  rw [get_node_aux_cons]
  unfold ChannelTreeService.ensure_child
  cases hc : assocLookup n.children s <;>
    simp [ChannelTreeService.get_node_aux, ChannelNodeState.weight]

theorem ingest_along_get (hold decay ts δ : ℚ) (hδ : 0 < δ) :
    ∀ (q' : List String) (t : List String) (s : String) (n : ChannelNodeState),
      nodesNonneg n = true →
      ∃ node2,
        ChannelTreeService.get_node_aux
            (ChannelTreeService.ingest_along hold decay ts δ (s :: (q' ++ t)) n)
            (s :: q') = some node2 ∧
        node2.weight = (match ChannelTreeService.get_node_aux n (s :: q') with
          | some nd => nd.weight
          | none => 0) + δ ∧
        node2.last_message_at = some ts := by
  intro q'
  induction q' with
  | nil =>
    intro t s n hn
    have hw0 : 0 ≤ (ChannelTreeService.ensure_child n s ts).weight := by
      have := nodesNonneg_ensure_child s ts hn
      cases he : ChannelTreeService.ensure_child n s ts with
      | mk p2 w2 l2 f2 lk2 c2 ch2 =>
        rw [he, nodesNonneg_mk] at this
        simpa [ChannelNodeState.weight] using this.1
    have hget : ChannelTreeService.get_node_aux
        (ChannelTreeService.ingest_along hold decay ts δ (s :: ([] ++ t)) n) [s]
        = some (ChannelTreeService.ingest_along hold decay ts δ t
            (((ChannelTreeService.ensure_child n s ts).touch ts
              δ).schedule_fade hold decay)) := by
      rw [List.nil_append, ingest_along_cons, get_node_aux_cons,
        withChildren_children, assocLookup_assocSet_self]
      rfl
    refine ⟨_, hget, ?_, ?_⟩
    · rw [(ingest_along_own hold decay ts δ t _).1, schedule_fade_weight,
        touch_weight, ← ensure_child_weight_eq s ts]
      exact max_eq_left (by linarith)
    · rw [(ingest_along_own hold decay ts δ t _).2, schedule_fade_last, touch_last]
  | cons s2 q'' ih =>
    intro t s n hn
    have hnn1 : nodesNonneg (((ChannelTreeService.ensure_child n s ts).touch ts
        δ).schedule_fade hold decay) = true :=
      nodesNonneg_schedule_fade _ _
        (nodesNonneg_touch _ _ (nodesNonneg_ensure_child s ts hn))
    obtain ⟨node2, h1, h2, h3⟩ := ih t s2 _ hnn1
    refine ⟨node2, ?_, ?_, h3⟩
    · rw [List.cons_append, ingest_along_cons, get_node_aux_cons,
        withChildren_children, assocLookup_assocSet_self]
      exact h1
    · rw [h2, get_node_aux_cons, schedule_fade_children, touch_children]
      rw [get_node_aux_cons (n := n)]
      unfold ChannelTreeService.ensure_child
      cases hc : assocLookup n.children s with
      | some c0 => rfl
      | none => rfl

/-- C4 as amended: for δ > 0, ingest adds exactly δ to the weight of the
root and of the node at every prefix of the message's channel path
(creating missing nodes at weight 0 first), and sets each such node's
`last_message_at` to the message's `received_at` unconditionally — the
timestamp may move backwards when the new message is older. -/
theorem C4_ingest_adds_delta_sets_timestamp :
    ∀ (svc : ChannelTreeService) (m : Message) (δ : ℚ), 0 < δ →
      nodesNonneg svc.root = true →
      ∀ q t : List String, q ++ t = m.channel_path →
        ∃ node2, (svc.ingest m δ).get_node q = some node2 ∧
          node2.weight = (match svc.get_node q with
            | some nd => nd.weight
            | none => 0) + δ ∧
          node2.last_message_at = some m.received_at := by
  intro svc m δ hδ hnn q t hqt
  cases q with
  | nil =>
    refine ⟨(svc.ingest m δ).root, rfl, ?_, ?_⟩
    · show (svc.ingest m δ).root.weight = svc.root.weight + δ
      have hw : 0 ≤ svc.root.weight := by
        cases hr : svc.root with
        | mk p w l f lk c ch =>
          have := hnn
          rw [hr, nodesNonneg_mk] at this
          simpa [ChannelNodeState.weight] using this.1
      simp only [ChannelTreeService.ingest]
      rw [(ingest_along_own _ _ _ _ _ _).1, touch_weight]
      exact max_eq_left (by linarith)
    · simp only [ChannelTreeService.ingest]
      rw [(ingest_along_own _ _ _ _ _ _).2, touch_last]
  | cons s q' =>
    have hpath : m.channel_path = s :: (q' ++ t) := hqt.symm
    have hnn2 : nodesNonneg (svc.root.touch m.received_at δ) = true :=
      nodesNonneg_touch _ _ hnn
    obtain ⟨node2, h1, h2, h3⟩ :=
      ingest_along_get svc.hold svc.decay m.received_at δ hδ q' t s _ hnn2
    refine ⟨node2, ?_, ?_, h3⟩
    · show ChannelTreeService.get_node_aux (svc.ingest m δ).root (s :: q') = some node2
      simp only [ChannelTreeService.ingest, hpath]
      exact h1
    · rw [h2]
      show _ = (match ChannelTreeService.get_node_aux svc.root (s :: q') with
        | some nd => nd.weight | none => 0) + δ
      rw [get_node_aux_cons, get_node_aux_cons, touch_children]

/-- C4 witness: with one prior message (weight 1) at `a`, ingesting a new
message at `a.b` with δ = 2 raises the weights of `a` (to 3) and creates
`a.b` at weight 2, setting both timestamps. -/
theorem C4_witness :
    (0 : ℚ) < 2 ∧
    (∃ node2,
      ((ChannelTreeService.init.ingest (sampleMessage ["a"] 0) 1).ingest
          (sampleMessage ["a", "b"] 7) 2).get_node ["a"] = some node2 ∧
      node2.weight = (match (ChannelTreeService.init.ingest
          (sampleMessage ["a"] 0) 1).get_node ["a"] with
        | some nd => nd.weight
        | none => 0) + 2 ∧
      node2.last_message_at = some (sampleMessage ["a", "b"] 7).received_at) :=
  ⟨by decide,
   C4_ingest_adds_delta_sets_timestamp _ (sampleMessage ["a", "b"] 7) 2
     (by decide) (by with_unfolding_all decide) ["a"] ["b"] (by decide)⟩

/-! ## Claim C8: increment colour assignment -/

theorem colorInv_init : ColorInv ColorServiceState.init :=
  ⟨by simp [ColorServiceState.init], by simp [ColorServiceState.init]⟩

theorem colorInv_query {cs : ColorServiceState} (k : String) (h : ColorInv cs) :
    ColorInv (get_incremental_scheme cs k).2 := by
  unfold get_incremental_scheme
  by_cases hl : (assocLookup cs.channel_index_map k).isSome
  · simpa [hl] using h
  · simp only [hl, if_false, Bool.false_eq_true]
    constructor
    · intro pr hpr
      simp only []
      rcases List.mem_append.mp hpr with h2 | h2
      · exact Nat.lt_succ_of_lt (h.1 pr h2)
      · simp at h2
        simp [h2]
    · refine List.pairwise_append.mpr ⟨h.2, by simp, ?_⟩
      intro a ha b hb
      simp only [List.mem_singleton] at hb
      subst hb
      exact Nat.ne_of_lt (h.1 a ha)

theorem colorInv_queries (ks : List String) : ColorInv (color_queries ks) := by
  suffices h : ∀ (l : List String) (cs : ColorServiceState), ColorInv cs →
      ColorInv (l.foldl (fun cs k => (get_incremental_scheme cs k).2) cs) by
    exact h ks ColorServiceState.init colorInv_init
  intro l
  induction l with
  | nil => intro cs h; exact h
  | cons k rest ih => intro cs h; exact ih _ (colorInv_query k h)

theorem hue_injective {s : ℤ} {i j : ℤ} (hi : 0 ≤ i) (hi2 : i < 360)
    (hj : 0 ≤ j) (hj2 : j < 360) (hne : i ≠ j) :
    (s + 101 * i) % 360 ≠ (s + 101 * j) % 360 := by
  intro h
  have h1 : (360 : ℤ) ∣ (101 * (i - j)) := by omega
  have h2 : (360 : ℤ) ∣ (i - j) :=
    Int.dvd_of_dvd_mul_right_of_gcd_one h1 (by decide)
  have h3 : i - j = 0 := Int.eq_zero_of_abs_lt_dvd h2 (by omega)
  exact hne (by omega)

theorem assocLookup_append_of_some {α : Type} {l : List (String × α)}
    {k : String} {v : α} (l2 : List (String × α))
    (h : assocLookup l k = some v) : assocLookup (l ++ l2) k = some v := by
  induction l with
  | nil => simp [assocLookup] at h
  | cons hd tl ih =>
    simp only [assocLookup, List.cons_append] at h ⊢
    split at h
    · rename_i he
      simp [he, h]
    · rename_i he
      simp only [he, if_false]
      exact ih h

theorem index_permanent_step {cs : ColorServiceState} {k : String} {i : Nat}
    (k2 : String) (h : assocLookup cs.channel_index_map k = some i) :
    assocLookup ((get_incremental_scheme cs k2).2).channel_index_map k = some i := by
  unfold get_incremental_scheme
  by_cases hl : (assocLookup cs.channel_index_map k2).isSome
  · simpa [hl] using h
  · simp only [hl, if_false, Bool.false_eq_true]
    exact assocLookup_append_of_some _ h

theorem index_permanent_run {k : String} {i : Nat} :
    ∀ (ks : List String) (cs : ColorServiceState),
      assocLookup cs.channel_index_map k = some i →
      assocLookup (queries_from cs ks).channel_index_map k = some i := by
  intro ks
  induction ks with
  | nil => intro cs h; exact h
  | cons k2 rest ih =>
    intro cs h
    exact ih _ (index_permanent_step k2 h)

theorem scheme_of_lookup_some {cs : ColorServiceState} {k : String} {i : Nat}
    (h : assocLookup cs.channel_index_map k = some i) :
    get_incremental_scheme cs k
      = (get_scheme_for_index colorServiceGenerator (i : ℤ), cs) := by
  simp [get_incremental_scheme, h]

theorem lookup_isSome_after_query (cs : ColorServiceState) (k : String) :
    ∃ i, assocLookup ((get_incremental_scheme cs k).2).channel_index_map k
      = some i := by
  unfold get_incremental_scheme
  by_cases hl : (assocLookup cs.channel_index_map k).isSome
  · obtain ⟨i, hi⟩ := Option.isSome_iff_exists.mp hl
    exact ⟨i, by simpa [hl] using hi⟩
  · have hnone : assocLookup cs.channel_index_map k = none :=
      Option.not_isSome_iff_eq_none.mp hl
    refine ⟨cs.next_index, ?_⟩
    simp only [hl, if_false, Bool.false_eq_true]
    exact assocLookup_append_right _ _ _ hnone

theorem lookup_isSome_of_queried {k : String} :
    ∀ (ks : List String) (cs : ColorServiceState), k ∈ ks →
      ∃ i, assocLookup (queries_from cs ks).channel_index_map k = some i := by
  intro ks
  induction ks with
  | nil => intro cs h; simp at h
  | cons k2 rest ih =>
    intro cs h
    rcases List.mem_cons.mp h with he | hm
    · subst he
      obtain ⟨i, hi⟩ := lookup_isSome_after_query cs k
      exact ⟨i, index_permanent_run rest _ hi⟩
    · exact ih _ hm

/-- C8: in increment mode the colour service is stable — a key's index is
assigned on first sight and never changes afterwards, no matter which other
keys are queried in between, so every repeated query of the same key within
one service instance returns the identical palette — the hue of index n is
`(start + 101 n) % 360`, and within one service instance any two distinct
keys whose assigned indices are below 360 get distinct hues. -/
theorem C8_increment_stable_and_distinct :
    (∀ (cs : ColorServiceState) (k : String),
      (get_incremental_scheme (get_incremental_scheme cs k).2 k).1
          = (get_incremental_scheme cs k).1 ∧
      (get_incremental_scheme (get_incremental_scheme cs k).2 k).2
          = (get_incremental_scheme cs k).2) ∧
    (∀ (ks1 ks2 : List String) (k : String) (i : Nat),
      assocLookup (color_queries ks1).channel_index_map k = some i →
      assocLookup (queries_from (color_queries ks1) ks2).channel_index_map k
        = some i) ∧
    (∀ (ks1 ks2 : List String) (k : String), k ∈ ks1 →
      (get_incremental_scheme (queries_from (color_queries ks1) ks2) k).1
        = (get_incremental_scheme (color_queries ks1) k).1) ∧
    (∀ index : ℤ, (get_scheme_for_index colorServiceGenerator index).hue
        = (0 + 101 * index) % 360) ∧
    (∀ (ks : List String) (k1 k2 : String) (i j : Nat),
      k1 ≠ k2 →
      assocLookup (color_queries ks).channel_index_map k1 = some i →
      assocLookup (color_queries ks).channel_index_map k2 = some j →
      i < 360 → j < 360 →
      (get_scheme_for_index colorServiceGenerator (i : ℤ)).hue
        ≠ (get_scheme_for_index colorServiceGenerator (j : ℤ)).hue) := by
  refine ⟨?_, ?_, ?_, fun index => rfl, ?_⟩
  · intro cs k
    by_cases hl : (assocLookup cs.channel_index_map k).isSome
    · simp [get_incremental_scheme, hl]
    · have hnone : assocLookup cs.channel_index_map k = none :=
        Option.not_isSome_iff_eq_none.mp hl
      have happ := assocLookup_append_right cs.channel_index_map k
        cs.next_index hnone
      constructor <;>
        simp [get_incremental_scheme, hl, happ]
  · intro ks1 ks2 k i h
    exact index_permanent_run ks2 _ h
  · intro ks1 ks2 k hmem
    obtain ⟨i, hi⟩ := lookup_isSome_of_queried ks1 ColorServiceState.init hmem
    have hi1 : assocLookup (color_queries ks1).channel_index_map k = some i := hi
    have hi2 : assocLookup
        (queries_from (color_queries ks1) ks2).channel_index_map k = some i :=
      index_permanent_run ks2 _ hi1
    rw [scheme_of_lookup_some hi2, scheme_of_lookup_some hi1]
  · intro ks k1 k2 i j hne h1 h2 hi hj
    have hinv := colorInv_queries ks
    have hm1 := assocLookup_some_mem h1
    have hm2 := assocLookup_some_mem h2
    have hij : i ≠ j := by
      intro he
      subst he
      have hsym : Symmetric fun a b : String × Nat => a.2 ≠ b.2 :=
        fun a b hab => hab.symm
      have := hinv.2.forall hsym hm1 hm2 (by simp [hne])
      exact this rfl
    simp only [get_scheme_for_index, generate_scheme]
    apply hue_injective (by positivity) (by exact_mod_cast hi)
      (by positivity) (by exact_mod_cast hj)
    exact_mod_cast hij

/-- C8 witness: after querying `x` then `y`, the keys hold indices 0 and 1;
interleaved queries of `z` and `y` leave the palette returned for `x`
unchanged, and the hues of `x` and `y` differ. -/
theorem C8_witness :
    assocLookup (color_queries ["x", "y"]).channel_index_map "x" = some 0 ∧
    (get_incremental_scheme (queries_from (color_queries ["x", "y"]) ["z", "y"])
        "x").1 = (get_incremental_scheme (color_queries ["x", "y"]) "x").1 ∧
    (get_scheme_for_index colorServiceGenerator (0 : ℤ)).hue
      ≠ (get_scheme_for_index colorServiceGenerator (1 : ℤ)).hue :=
  ⟨by with_unfolding_all decide,
   C8_increment_stable_and_distinct.2.2.1 ["x", "y"] ["z", "y"] "x" (by decide),
   C8_increment_stable_and_distinct.2.2.2.2 ["x", "y"] "x" "y" 0 1 (by decide)
     (by with_unfolding_all decide) (by with_unfolding_all decide)
     (by decide) (by decide)⟩

/-! ## Claim C6: layout frames stay in the unit square, one per node -/

/-- Nested induction principle for the channel-node tree. -/
theorem node_ind (P : ChannelNodeState → Prop)
    (Q : List (String × ChannelNodeState) → Prop)
    (h1 : ∀ p w l fd lk c ch, Q ch → P (.mk p w l fd lk c ch))
    (hnil : Q [])
    (hcons : ∀ s n rest, P n → Q rest → Q ((s, n) :: rest)) : ∀ n, P n := fun n =>
  ChannelNodeState.rec (motive_1 := P) (motive_2 := Q) (motive_3 := fun pr => P pr.2)
    (fun p w l fd lk c ch ih => h1 p w l fd lk c ch ih)
    hnil
    (fun hd tl ih1 ih2 => by
      obtain ⟨s, nn⟩ := hd
      exact hcons s nn tl ih1 ih2)
    (fun _ _ ih => ih)
    n

theorem countNodes_mk (p w l f lk c ch) :
    countNodes (.mk p w l f lk c ch) = 1 + countNodesList ch := rfl

theorem childPathsNonemptyList_iff :
    ∀ {ch : List (String × ChannelNodeState)},
      childPathsNonemptyList ch = true ↔
        ∀ pr ∈ ch, pr.2.path ≠ [] ∧ childPathsNonempty pr.2 = true := by
  intro ch
  induction ch with
  | nil => simp [childPathsNonemptyList]
  | cons hd tl ih =>
    obtain ⟨s, n⟩ := hd
    simp [childPathsNonemptyList, Bool.and_eq_true, ih, List.isEmpty_iff]

theorem childPathsNonempty_mk (p w l f lk c ch) :
    childPathsNonempty (.mk p w l f lk c ch) = childPathsNonemptyList ch := rfl

theorem populate_children_bounds
    (minE : ℚ) (svc : ChannelTreeService) (ts : ℚ) (d : Nat) (cr : LayoutRect)
    (tw : ℚ) (hminE : 0 ≤ minE) (hcr : GoodRect cr) :
    ∀ (cl : List (String × ChannelNodeState)) (remaining cursor : ℚ)
      (cst : ColorServiceState),
      (∀ pr ∈ cl, ∀ (r : LayoutRect) (d2 : Nat) (cst2 : ColorServiceState),
        GoodRect r →
        ∀ f ∈ (populate_frames minE svc ts pr.2 r d2 cst2).1, GoodRect f.rect) →
      0 ≤ remaining → cr.x ≤ cursor →
      cursor + remaining * cr.width ≤ cr.x + cr.width →
      ∀ f ∈ (populate_children minE svc ts d cr tw cl remaining cursor cst).1,
        GoodRect f.rect := by
  obtain ⟨crx, cry, crw, crh, hcr1, hcr2⟩ : 0 ≤ cr.x ∧ 0 ≤ cr.y ∧ 0 ≤ cr.width ∧
      0 ≤ cr.height ∧ cr.x + cr.width ≤ 1 ∧ cr.y + cr.height ≤ 1 := hcr
  intro cl
  induction cl with
  | nil =>
    intro remaining cursor cst _ _ _ _ f hf
    simp [populate_children] at hf
  | cons hd tl ih =>
    intro remaining cursor cst hIH h0 h1 h2 f hf
    obtain ⟨sg, child⟩ := hd
    simp only [populate_children] at hf
    set w := if d = 0 then (1 : ℚ) else pad_weight child.weight with hw
    set raw := if tw ≠ 0 then w / tw else 0 with hraw
    set F := if tl.isEmpty = true then remaining
      else min (max raw minE) remaining with hF
    have hF0 : 0 ≤ F := by
      rw [hF]
      split
      · exact h0
      · exact le_min (le_trans hminE (le_max_right _ _)) h0
    have hFr : F ≤ remaining := by
      rw [hF]
      split
      · exact le_refl _
      · exact min_le_right _ _
    have hwidth0 : 0 ≤ F * cr.width := mul_nonneg hF0 crw
    have hwidthle : F * cr.width ≤ remaining * cr.width :=
      mul_le_mul_of_nonneg_right hFr crw
    rcases List.mem_append.mp hf with hf1 | hf2
    · refine hIH (sg, child) (List.mem_cons_self _ _) _ _ _ ?_ f hf1
      refine ⟨le_trans crx h1, cry, hwidth0, crh, ?_, hcr2⟩
      show cursor + F * cr.width ≤ 1
      linarith
    · have hrem : max 0 (remaining - F) = remaining - F :=
        max_eq_right (by linarith)
      refine ih _ _ _ (fun pr hpr => hIH pr (List.mem_cons_of_mem _ hpr))
        (by rw [hrem]; linarith) (by linarith) ?_ f hf2
      rw [hrem]
      have : cursor + F * cr.width + (remaining - F) * cr.width
          = cursor + remaining * cr.width := by ring
      linarith

theorem populate_frames_bounds (minE : ℚ) (svc : ChannelTreeService) (ts : ℚ)
    (hminE : 0 ≤ minE) :
    ∀ n : ChannelNodeState, ∀ (r : LayoutRect) (d : Nat) (cst : ColorServiceState),
      GoodRect r → ∀ f ∈ (populate_frames minE svc ts n r d cst).1, GoodRect f.rect := by
  apply node_ind
    (Q := fun ch => ∀ pr ∈ ch,
      ∀ (r : LayoutRect) (d : Nat) (cst : ColorServiceState), GoodRect r →
        ∀ f ∈ (populate_frames minE svc ts pr.2 r d cst).1, GoodRect f.rect)
  · intro p w l fd lk c ch hQ r d cst hr f hf
    obtain ⟨hrx, hry, hrw, hrh, hr1, hr2⟩ : 0 ≤ r.x ∧ 0 ≤ r.y ∧ 0 ≤ r.width ∧
        0 ≤ r.height ∧ r.x + r.width ≤ 1 ∧ r.y + r.height ≤ 1 := hr
    cases ch with
    | nil =>
      simp only [populate_frames] at hf
      split at hf
      · simp at hf
      · simp only [List.mem_singleton] at hf
        subst hf
        exact ⟨hrx, hry, hrw, hrh, hr1, hr2⟩
    | cons c0 crest =>
      simp only [populate_frames] at hf
      by_cases hinc : (!(ChannelNodeState.mk p w l fd lk c
          (c0 :: crest)).path.isEmpty) = true
      · simp only [hinc, if_true] at hf
        rcases List.mem_append.mp hf with hf1 | hf2
        · simp only [List.mem_singleton] at hf1
          subst hf1
          refine ⟨hrx, hry, hrw, ?_, hr1, ?_⟩
          · show (0 : ℚ) ≤ _
            split <;> nlinarith
          · split <;> nlinarith
        · refine populate_children_bounds minE svc ts _ _ _ hminE ?_
            (c0 :: crest) 1 _ _ hQ (by norm_num) (le_refl _) (by linarith) f hf2
          refine ⟨hrx, ?_, hrw, ?_, hr1, ?_⟩ <;> (split <;> nlinarith)
      · simp only [hinc, if_false] at hf
        rcases List.mem_append.mp hf with hf1 | hf2
        · simp at hf1
        · exact populate_children_bounds minE svc ts _ _ _ hminE
            ⟨hrx, hry, hrw, hrh, hr1, hr2⟩
            (c0 :: crest) 1 _ _ hQ (by norm_num) (le_refl _) (by linarith) f hf2
  · intro pr hpr
    simp at hpr
  · intro s n rest hP hQ pr hpr r d cst hr f hf
    rcases List.mem_cons.mp hpr with h | h
    · subst h
      exact hP r d cst hr f hf
    · exact hQ pr h r d cst hr f hf

theorem populate_children_count (minE : ℚ) (svc : ChannelTreeService) (ts : ℚ)
    (d : Nat) (cr : LayoutRect) (tw : ℚ) :
    ∀ (cl : List (String × ChannelNodeState)) (remaining cursor : ℚ)
      (cst : ColorServiceState),
      (∀ pr ∈ cl, ∀ (r : LayoutRect) (d2 : Nat) (cst2 : ColorServiceState),
        (populate_frames minE svc ts pr.2 r d2 cst2).1.length = countNodes pr.2) →
      (populate_children minE svc ts d cr tw cl remaining cursor cst).1.length
        = countNodesList cl := by
  intro cl
  induction cl with
  | nil =>
    intro remaining cursor cst _
    simp [populate_children, countNodesList]
  | cons hd tl ih =>
    intro remaining cursor cst hIH
    obtain ⟨sg, child⟩ := hd
    simp only [populate_children, List.length_append]
    rw [hIH (sg, child) (List.mem_cons_self _ _),
      ih _ _ _ (fun pr hpr => hIH pr (List.mem_cons_of_mem _ hpr))]
    rfl

theorem populate_frames_count (minE : ℚ) (svc : ChannelTreeService) (ts : ℚ) :
    ∀ n : ChannelNodeState, childPathsNonempty n = true →
      ∀ (r : LayoutRect) (d : Nat) (cst : ColorServiceState),
        (populate_frames minE svc ts n r d cst).1.length
          + (if n.path.isEmpty then 1 else 0) = countNodes n := by
  apply node_ind
    (Q := fun ch => ∀ pr ∈ ch, childPathsNonempty pr.2 = true →
      ∀ (r : LayoutRect) (d : Nat) (cst : ColorServiceState),
        (populate_frames minE svc ts pr.2 r d cst).1.length
          + (if pr.2.path.isEmpty then 1 else 0) = countNodes pr.2)
  · intro p w l fd lk c ch hQ hcp r d cst
    have hmem : ∀ pr ∈ ch, pr.2.path ≠ [] ∧ childPathsNonempty pr.2 = true :=
      childPathsNonemptyList_iff.mp (by rwa [childPathsNonempty_mk] at hcp)
    have hchild : ∀ pr ∈ ch, ∀ (r2 : LayoutRect) (d2 : Nat)
        (cst2 : ColorServiceState),
        (populate_frames minE svc ts pr.2 r2 d2 cst2).1.length = countNodes pr.2 := by
      intro pr hpr r2 d2 cst2
      have h1 := hQ pr hpr (hmem pr hpr).2 r2 d2 cst2
      have h2 : pr.2.path.isEmpty = false := by
        simp [List.isEmpty_iff, (hmem pr hpr).1]
      rw [h2] at h1
      simpa using h1
    cases ch with
    | nil =>
      simp only [populate_frames, countNodes_mk]
      split
      · rename_i hp
        simp only [ChannelNodeState.path] at hp ⊢
        simp [hp, countNodesList]
      · rename_i hp
        simp only [ChannelNodeState.path] at hp ⊢
        simp [hp, countNodesList]
    | cons c0 crest =>
      simp only [populate_frames]
      by_cases hinc : (!(ChannelNodeState.mk p w l fd lk c
          (c0 :: crest)).path.isEmpty) = true
      · simp only [hinc, if_true, List.length_append, List.length_singleton]
        rw [populate_children_count minE svc ts _ _ _ _ _ _ _ hchild]
        have hp : p.isEmpty = false := by
          simpa [ChannelNodeState.path] using hinc
        simp [ChannelNodeState.path, hp, countNodes_mk]
      · simp only [hinc, if_false, List.length_append, List.length_nil]
        rw [populate_children_count minE svc ts _ _ _ _ _ _ _ hchild]
        have hp : p.isEmpty = true := by
          simpa [ChannelNodeState.path] using hinc
        simp [ChannelNodeState.path, hp, countNodes_mk]
        omega
  · intro pr hpr
    simp at hpr
  · intro s n rest hP hQ pr hpr hcp r d cst
    rcases List.mem_cons.mp hpr with h | h
    · subst h
      exact hP hcp r d cst
    · exact hQ pr h hcp r d cst

theorem iter_nodes_from_mk (p w l f lk c ch) :
    iter_nodes_from (.mk p w l f lk c ch)
      = ChannelNodeState.mk p w l f lk c ch :: iter_nodes_children ch := rfl

theorem iter_nodes_children_nil : iter_nodes_children [] = [] := rfl

theorem iter_nodes_children_cons (s : String) (n : ChannelNodeState)
    (rest : List (String × ChannelNodeState)) :
    iter_nodes_children ((s, n) :: rest)
      = iter_nodes_from n ++ iter_nodes_children rest := rfl

theorem populate_children_paths (minE : ℚ) (svc : ChannelTreeService) (ts : ℚ)
    (d : Nat) (cr : LayoutRect) (tw : ℚ) :
    ∀ (cl : List (String × ChannelNodeState)) (remaining cursor : ℚ)
      (cst : ColorServiceState),
      (∀ pr ∈ cl, ∀ (r2 : LayoutRect) (d2 : Nat) (cst2 : ColorServiceState),
        (populate_frames minE svc ts pr.2 r2 d2 cst2).1.map LayoutFrame.path
          = ((iter_nodes_from pr.2).filter (fun nd => !nd.path.isEmpty)).map
              ChannelNodeState.path) →
      (populate_children minE svc ts d cr tw cl remaining cursor cst).1.map
          LayoutFrame.path
        = ((iter_nodes_children cl).filter (fun nd => !nd.path.isEmpty)).map
            ChannelNodeState.path := by
  intro cl
  induction cl with
  | nil =>
    intro remaining cursor cst _
    simp [populate_children, iter_nodes_children_nil]
  | cons hd tl ih =>
    intro remaining cursor cst hIH
    obtain ⟨sg, child⟩ := hd
    simp only [populate_children, iter_nodes_children_cons, List.map_append,
      List.filter_append]
    rw [hIH (sg, child) (List.mem_cons_self _ _),
      ih _ _ _ (fun pr hpr => hIH pr (List.mem_cons_of_mem _ hpr))]

theorem populate_frames_paths (minE : ℚ) (svc : ChannelTreeService) (ts : ℚ) :
    ∀ n : ChannelNodeState, childPathsNonempty n = true →
      ∀ (r : LayoutRect) (d : Nat) (cst : ColorServiceState),
        (populate_frames minE svc ts n r d cst).1.map LayoutFrame.path
          = ((iter_nodes_from n).filter (fun nd => !nd.path.isEmpty)).map
              ChannelNodeState.path := by
  apply node_ind
    (Q := fun ch => ∀ pr ∈ ch, childPathsNonempty pr.2 = true →
      ∀ (r : LayoutRect) (d : Nat) (cst : ColorServiceState),
        (populate_frames minE svc ts pr.2 r d cst).1.map LayoutFrame.path
          = ((iter_nodes_from pr.2).filter (fun nd => !nd.path.isEmpty)).map
              ChannelNodeState.path)
  · intro p w l fd lk c ch hQ hcp r d cst
    have hmem : ∀ pr ∈ ch, pr.2.path ≠ [] ∧ childPathsNonempty pr.2 = true :=
      childPathsNonemptyList_iff.mp (by rwa [childPathsNonempty_mk] at hcp)
    have hchild : ∀ pr ∈ ch, ∀ (r2 : LayoutRect) (d2 : Nat)
        (cst2 : ColorServiceState),
        (populate_frames minE svc ts pr.2 r2 d2 cst2).1.map LayoutFrame.path
          = ((iter_nodes_from pr.2).filter (fun nd => !nd.path.isEmpty)).map
              ChannelNodeState.path :=
      fun pr hpr => hQ pr hpr (hmem pr hpr).2
    cases ch with
    | nil =>
      simp only [populate_frames, iter_nodes_from_mk, iter_nodes_children_nil]
      split
      · rename_i hp
        simp only [ChannelNodeState.path] at hp ⊢
        simp [List.filter_cons, ChannelNodeState.path, hp]
      · rename_i hp
        simp only [ChannelNodeState.path] at hp ⊢
        simp [List.filter_cons, ChannelNodeState.path, hp]
    | cons c0 crest =>
      simp only [populate_frames, iter_nodes_from_mk]
      by_cases hinc : (!(ChannelNodeState.mk p w l fd lk c
          (c0 :: crest)).path.isEmpty) = true
      · simp only [hinc, if_true, List.map_append]
        rw [populate_children_paths minE svc ts _ _ _ _ _ _ _ hchild]
        rw [List.filter_cons]
        simp only [ChannelNodeState.path] at hinc ⊢
        simp [hinc, ChannelNodeState.path]
      · simp only [hinc, if_false, List.map_append]
        rw [populate_children_paths minE svc ts _ _ _ _ _ _ _ hchild]
        rw [List.filter_cons]
        have hp : p = [] := by
          revert hinc
          simp [ChannelNodeState.path, List.isEmpty_iff]
        simp [ChannelNodeState.path, hp]
  · intro pr hpr
    simp at hpr
  · intro s n rest hP hQ pr hpr hcp r d cst
    rcases List.mem_cons.mp hpr with h | h
    · subst h
      exact hP hcp r d cst
    · exact hQ pr h hcp r d cst

theorem withChildren_path (n : ChannelNodeState) (ch2 : List (String × ChannelNodeState)) :
    (n.withChildren ch2).path = n.path := by cases n; rfl

theorem dec_weight_path (δ : ℚ) (n : ChannelNodeState) :
    (dec_weight δ n).path = n.path := by cases n; rfl

theorem dec_weight_children (δ : ℚ) (n : ChannelNodeState) :
    (dec_weight δ n).children = n.children := by cases n; rfl

theorem childPathsNonempty_dec_weight (δ : ℚ) (n : ChannelNodeState) :
    childPathsNonempty (dec_weight δ n) = childPathsNonempty n := by cases n; rfl

theorem remove_child_at_path :
    ∀ (q : List String) (n : ChannelNodeState) (seg : String),
      (remove_child_at n q seg).path = n.path := by
  intro q n seg
  cases q with
  | nil => exact withChildren_path _ _
  | cons s rest =>
    simp only [remove_child_at]
    cases assocLookup n.children s with
    | none => rfl
    | some c => exact withChildren_path _ _

theorem dec_along_path (δ : ℚ) :
    ∀ (q : List String) (n : ChannelNodeState),
      (dec_along δ n q).path = n.path := by
  intro q n
  cases q with
  | nil => exact dec_weight_path _ _
  | cons s rest =>
    simp only [dec_along]
    cases assocLookup (dec_weight δ n).children s with
    | none => exact dec_weight_path _ _
    | some c => rw [withChildren_path, dec_weight_path]

theorem childPathsNonempty_remove_child_at :
    ∀ (q : List String) (n : ChannelNodeState) (seg : String),
      childPathsNonempty n = true →
      childPathsNonempty (remove_child_at n q seg) = true := by
  intro q
  induction q with
  | nil =>
    intro n seg h
    cases n with
    | mk p w l f lk c ch =>
      rw [childPathsNonempty_mk, childPathsNonemptyList_iff] at h
      simp only [remove_child_at, ChannelNodeState.withChildren]
      rw [childPathsNonempty_mk, childPathsNonemptyList_iff]
      exact fun pr hpr => h pr (mem_assocErase pr hpr)
  | cons s rest ih =>
    intro n seg h
    cases n with
    | mk p w l f lk c ch =>
      rw [childPathsNonempty_mk, childPathsNonemptyList_iff] at h
      simp only [remove_child_at]
      cases hc : assocLookup (ChannelNodeState.mk p w l f lk c ch).children s with
      | none =>
        rw [childPathsNonempty_mk, childPathsNonemptyList_iff]
        exact h
      | some c2 =>
        simp only [ChannelNodeState.withChildren]
        rw [childPathsNonempty_mk, childPathsNonemptyList_iff]
        intro pr hpr
        rcases mem_assocSet pr hpr with h2 | h2
        · have hc2 := h _ (assocLookup_some_mem hc)
          rw [h2, remove_child_at_path]
          exact ⟨hc2.1, ih _ _ hc2.2⟩
        · exact h pr h2

theorem childPathsNonempty_dec_along (δ : ℚ) :
    ∀ (q : List String) (n : ChannelNodeState),
      childPathsNonempty n = true →
      childPathsNonempty (dec_along δ n q) = true := by
  intro q
  induction q with
  | nil =>
    intro n h
    simp only [dec_along]
    rwa [childPathsNonempty_dec_weight]
  | cons s rest ih =>
    intro n h
    simp only [dec_along]
    cases hc : assocLookup (dec_weight δ n).children s with
    | none => rwa [childPathsNonempty_dec_weight]
    | some c2 =>
      cases hn : dec_weight δ n with
      | mk p w l f lk c ch =>
        have hdec : childPathsNonempty (ChannelNodeState.mk p w l f lk c ch) = true := by
          rw [← hn, childPathsNonempty_dec_weight]
          exact h
        rw [hn] at hc
        rw [childPathsNonempty_mk, childPathsNonemptyList_iff] at hdec
        simp only [ChannelNodeState.withChildren]
        rw [childPathsNonempty_mk, childPathsNonemptyList_iff]
        intro pr hpr
        rcases mem_assocSet pr hpr with h2 | h2
        · have hc2 := hdec _ (assocLookup_some_mem hc)
          rw [h2, dec_along_path]
          exact ⟨hc2.1, ih _ hc2.2⟩
        · exact hdec pr h2

theorem prune_root_path (svc : ChannelTreeService) (q : List String) :
    ((svc.prune q).getD svc).root.path = svc.root.path := by
  simp only [ChannelTreeService.prune]
  split
  · rfl
  · split
    · rfl
    · split
      · rfl
      · rw [Option.getD_some]
        show (dec_along _ _ _).path = _
        rw [dec_along_path, remove_child_at_path]

theorem prune_fold_root_path :
    ∀ (ps : List (List String)) (svc : ChannelTreeService),
      ((ps.foldl (fun s q => (s.prune q).getD s) svc)).root.path = svc.root.path := by
  intro ps
  induction ps with
  | nil => intro svc; rfl
  | cons q rest ih =>
    intro svc
    rw [List.foldl_cons, ih, prune_root_path]

theorem cleanup_expired_root_path (svc : ChannelTreeService) (now : ℚ) :
    (svc.cleanup_expired now).root.path = svc.root.path := by
  simp only [ChannelTreeService.cleanup_expired]
  rw [prune_fold_root_path]
  rfl

theorem childPathsNonempty_prune (svc : ChannelTreeService) (q : List String)
    (h : childPathsNonempty svc.root = true) :
    childPathsNonempty ((svc.prune q).getD svc).root = true := by
  simp only [ChannelTreeService.prune]
  split
  · exact h
  · split
    · exact h
    · split
      · exact h
      · rw [Option.getD_some]
        exact childPathsNonempty_dec_along _ _ _
          (childPathsNonempty_remove_child_at _ _ _ h)

theorem childPathsNonempty_prune_fold :
    ∀ (ps : List (List String)) (svc : ChannelTreeService),
      childPathsNonempty svc.root = true →
      childPathsNonempty ((ps.foldl (fun s q => (s.prune q).getD s) svc)).root
        = true := by
  intro ps
  induction ps with
  | nil => intro svc h; exact h
  | cons q rest ih =>
    intro svc h
    exact ih _ (childPathsNonempty_prune _ _ h)

theorem childPathsNonempty_cleanup (svc : ChannelTreeService) (now : ℚ)
    (h : childPathsNonempty svc.root = true) :
    childPathsNonempty (svc.cleanup_expired now).root = true := by
  simp only [ChannelTreeService.cleanup_expired]
  exact childPathsNonempty_prune_fold _ _ h

/-- C6: for every tree and timestamp (over well-formed service trees: the
root path is empty and every strict descendant stores a non-empty path, as
the service maintains), the generated layout has every frame's rectangle
inside the unit square with non-negative extent; the frames correspond one
to one and in order to the non-root nodes yielded by `iter_nodes` on the
tree left by the initial `cleanup_expired` (each node contributes exactly
one frame, carrying that node's path), so in particular the frame count is
the non-root node count; and the layout is empty when that root has no
children. -/
theorem C6_layout_unit_square_one_frame_per_node :
    ∀ (min_extent : ℚ) (svc : ChannelTreeService) (timestamp : ℚ)
      (cst : ColorServiceState),
      0 ≤ min_extent →
      svc.root.path = [] →
      childPathsNonempty svc.root = true →
      (∀ f ∈ (generate min_extent svc timestamp cst).1, GoodRect f.rect) ∧
      (generate min_extent svc timestamp cst).1.map LayoutFrame.path
        = ((iter_nodes (svc.cleanup_expired timestamp)).filter
            (fun nd => !nd.path.isEmpty)).map ChannelNodeState.path ∧
      (generate min_extent svc timestamp cst).1.length
        = countNodes (svc.cleanup_expired timestamp).root - 1 ∧
      ((svc.cleanup_expired timestamp).root.children = [] →
        (generate min_extent svc timestamp cst).1 = []) := by
  intro minE svc ts cst hminE hrp hcp
  have hrp2 : (svc.cleanup_expired ts).root.path = [] := by
    rw [cleanup_expired_root_path]
    exact hrp
  have hcp2 : childPathsNonempty (svc.cleanup_expired ts).root = true :=
    childPathsNonempty_cleanup svc ts hcp
  unfold generate
  by_cases hE : (svc.cleanup_expired ts).root.children.isEmpty = true
  · rw [List.isEmpty_iff] at hE
    simp only [hE, List.isEmpty_nil, if_true]
    cases hroot : (svc.cleanup_expired ts).root with
    | mk p w l f lk c ch =>
      have hch : ch = [] := by
        have := hE
        rw [hroot] at this
        simpa [ChannelNodeState.children] using this
      have hp : p = [] := by
        have := hrp2
        rw [hroot] at this
        simpa [ChannelNodeState.path] using this
      subst hch
      subst hp
      refine ⟨by simp, ?_, ?_, fun _ => by simp⟩
      · show ([] : List LayoutFrame).map LayoutFrame.path = _
        simp only [iter_nodes, hroot, iter_nodes_from_mk, iter_nodes_children_nil]
        simp [List.filter_cons, ChannelNodeState.path]
      · simp [countNodes_mk, countNodesList]
  · have hE2 : (svc.cleanup_expired ts).root.children.isEmpty = false := by
      revert hE
      cases (svc.cleanup_expired ts).root.children.isEmpty <;> simp
    simp only [hE2, Bool.false_eq_true, if_false]
    refine ⟨?_, ?_, ?_, ?_⟩
    · intro f hf
      exact populate_frames_bounds minE (svc.cleanup_expired ts) ts hminE
        _ _ _ _ (by constructor <;> norm_num) f hf
    · rw [populate_frames_paths minE (svc.cleanup_expired ts) ts _ hcp2]
      rfl
    · have hcount := populate_frames_count minE (svc.cleanup_expired ts) ts
        _ hcp2 ⟨0, 0, 1, 1⟩ 0 cst
      rw [hrp2] at hcount
      simp only [List.isEmpty_nil, if_true] at hcount
      omega
    · intro hnil
      rw [hnil] at hE2
      simp at hE2

/-- C6 witness: a service with messages at `a`, `a.b` and `c`, laid out at
t = 0 with the default `min_extent`. -/
theorem C6_witness :
    (0 : ℚ) ≤ 1/50 ∧
    (∀ f ∈ (generate (1/50)
        (((ChannelTreeService.init.ingest (sampleMessage ["a"] 0) 1).ingest
            (sampleMessage ["a", "b"] 0) 1).ingest (sampleMessage ["c"] 0) 1)
        0 ColorServiceState.init).1, GoodRect f.rect) ∧
    (generate (1/50)
        (((ChannelTreeService.init.ingest (sampleMessage ["a"] 0) 1).ingest
            (sampleMessage ["a", "b"] 0) 1).ingest (sampleMessage ["c"] 0) 1)
        0 ColorServiceState.init).1.map LayoutFrame.path
      = ((iter_nodes ((((ChannelTreeService.init.ingest (sampleMessage ["a"] 0)
            1).ingest (sampleMessage ["a", "b"] 0) 1).ingest
            (sampleMessage ["c"] 0) 1).cleanup_expired 0)).filter
          (fun nd => !nd.path.isEmpty)).map ChannelNodeState.path ∧
    (generate (1/50)
        (((ChannelTreeService.init.ingest (sampleMessage ["a"] 0) 1).ingest
            (sampleMessage ["a", "b"] 0) 1).ingest (sampleMessage ["c"] 0) 1)
        0 ColorServiceState.init).1.length
      = countNodes ((((ChannelTreeService.init.ingest (sampleMessage ["a"] 0)
            1).ingest (sampleMessage ["a", "b"] 0) 1).ingest
            (sampleMessage ["c"] 0) 1).cleanup_expired 0).root - 1 :=
  ⟨by norm_num,
   (C6_layout_unit_square_one_frame_per_node (1/50) _ 0 ColorServiceState.init
     (by norm_num) (by with_unfolding_all decide) (by with_unfolding_all decide)).1,
   (C6_layout_unit_square_one_frame_per_node (1/50) _ 0 ColorServiceState.init
     (by norm_num) (by with_unfolding_all decide)
     (by with_unfolding_all decide)).2.1,
   (C6_layout_unit_square_one_frame_per_node (1/50) _ 0 ColorServiceState.init
     (by norm_num) (by with_unfolding_all decide)
     (by with_unfolding_all decide)).2.2.1⟩

end TreeSignal
